import Mathlib

/-!
# rDSN replication: the replica commit pipeline

A shallow embedding of `src/apps/replication/lib/replica.cpp`.

* Pointers that the source compares against `nullptr` are `Option` values.
* `dassert` failures and null dereferences end the call with a `fault`; in every
  function of this file all such checks come before the first recorded effect of
  the call, so a faulting call has performed none.
* The calls a function makes on its collaborators (the app, the commit log, the
  RPC layer) are recorded, in program order, as a list of `effect` values that is
  returned next to the new replica state.
* The app (`replication_app_base`) and the log (`mutation_log`) are abstract
  classes whose code is not part of this file of the repository; they are taken
  as records of functions over an arbitrary state type, so that every theorem
  holds for every app and every log.
* Decrees and ballots are 64 bit signed integers in the source; they are `Int`
  here (signed overflow is undefined in the source and is not modelled).
-/

namespace dsn.replication

/-! ## Data model -/

abbrev decree := Int

abbrev ballot := Int

/-- Error codes named by the source; every other registered code is `ERR_OTHER n`. -/
inductive error_code where
  | ERR_OK
  | ERR_INVALID_STATE
  | ERR_INCOMPLETE_DATA
  | ERR_OTHER (code : Nat)
  deriving DecidableEq

/-- The five roles handled by the `switch (status())` of `execute_mutation`. -/
inductive partition_status where
  | PS_INACTIVE
  | PS_ERROR
  | PS_PRIMARY
  | PS_SECONDARY
  | PS_POTENTIAL_SECONDARY
  deriving DecidableEq

/-- Modelled from the spec: the read semantics of a client read. The source names
only `ReadLastUpdate` (last committed value); the two others are the stale and the
snapshot read. -/
inductive read_semantic_t where
  | ReadLastUpdate
  | ReadOutdated
  | ReadSnapshot
  deriving DecidableEq

/-- Modelled from the spec: the learning progress of a potential secondary, in
the order of the enumeration; the source compares it with `>=`. -/
inductive learner_status where
  | Learning_INVALID
  | LearningWithoutPrepare
  | LearningWithPrepare
  | LearningSucceeded
  | LearningFailed
  deriving DecidableEq

/-- The integer value of a `learner_status`, used by the `>=` of the source. -/
def learner_status.toNat : learner_status → Nat
  | .Learning_INVALID => 0
  | .LearningWithoutPrepare => 1
  | .LearningWithPrepare => 2
  | .LearningSucceeded => 3
  | .LearningFailed => 4

structure global_partition_id where
  app_id : Nat
  pidx : Nat
  deriving DecidableEq

structure mutation_header where
  gpid : global_partition_id
  ballot : ballot
  decree : decree
  log_offset : Int
  deriving DecidableEq

structure mutation_data where
  header : mutation_header
  updates : List Nat
  deriving DecidableEq

/-- A mutation: `data.header` as in the source, and the flag read by `is_logged()`. -/
structure mutation where
  data : mutation_data
  logged : Bool
  deriving DecidableEq

def mutation.is_logged (mu : mutation) : Bool := mu.logged

/-- A message handle; `none` is the null message. -/
abbrev dsn_message_t := Option Nat

structure read_request_header where
  semantic : read_semantic_t
  code : String
  deriving DecidableEq

/-- Modelled from the spec: the membership snapshot `{ gpid, ballot, primary, secondaries }`. -/
structure partition_configuration where
  gpid : global_partition_id
  ballot : ballot
  primary : Nat
  secondaries : List Nat
  deriving DecidableEq

/-- The fields of `_config` used by this file. -/
structure replica_configuration where
  gpid : global_partition_id
  ballot : ballot
  status : partition_status
  deriving DecidableEq

/-- Modelled from the spec: the prepare list, a window of mutations above the last
committed decree, with the three queries the replica makes on it. -/
structure prepare_list where
  last_committed_decree : decree
  max_decree : decree
  mutations : List mutation
  deriving DecidableEq

/-- The entry held for decree `d`, or `none` (the null mutation pointer). -/
def prepare_list.get_mutation_by_decree (pl : prepare_list) (d : decree) : Option mutation :=
  pl.mutations.find? (fun mu => mu.data.header.decree == d)

structure primary_context where
  membership : partition_configuration
  last_prepare_decree_on_new_primary : decree
  deriving DecidableEq

/-- The secondary role state: `checkpoint_task` is `some` while a checkpoint runs. -/
structure secondary_context where
  checkpoint_task : Option Nat
  deriving DecidableEq

structure potential_secondary_context where
  learning_status : learner_status
  deriving DecidableEq

structure replication_options where
  staleness_for_commit : Int
  max_mutation_count_in_prepare_list : Nat
  deriving DecidableEq

/-- The part of the replica stub read by the replica: the shared log `_stub->_log`. -/
structure replica_stub (L : Type) where
  log : Option L
  deriving DecidableEq

/-- The replica object; each field is the member of the same name (without the
leading underscore) of `class replica`. -/
structure replica (A L : Type) where
  stub : replica_stub L
  app : Option A
  check_timer : Option Nat
  options : replication_options
  inactive_is_transient : Bool
  prepare_list : prepare_list
  config : replica_configuration
  primary_states : primary_context
  secondary_states : secondary_context
  potential_secondary_states : potential_secondary_context
  commit_log : Option L
  deriving DecidableEq

/-- Modelled from the spec: the app integration API, `write_internal(mutation)`
with its error code and the new app state, and the two decree queries. -/
structure replication_app_base (A : Type) where
  write_internal : A → mutation → error_code × A
  last_committed_decree : A → decree
  last_durable_decree : A → decree

/-- Modelled from the spec: the commit log query and update API. `append` gives the
log once the append is issued; its completion is delivered later to the callback. -/
structure mutation_log (L : Type) where
  min_decree : L → global_partition_id → decree
  max_decree : L → global_partition_id → decree
  append : L → mutation → L
  reset_as_commit_log : L → global_partition_id → decree → L

/-- How a call can end other than by returning. -/
inductive fault where
  | assertion_failed
  | null_dereference
  deriving DecidableEq

/-- The calls made on the collaborators of the replica. -/
inductive effect where
  | reply (request : Nat) (err : error_code)
  | dispatch_rpc_call (code : String) (request : dsn_message_t)
  | write_internal (mu : mutation)
  | handle_local_failure (err : error_code)
  | append (mu : mutation)
  | reset_as_commit_log (gpid : global_partition_id) (base : decree)
  | cancel_timer (wait : Bool)
  | close_commit_log
  | close_app (clear_state : Bool)
  | update_local_configuration_with_no_ballot_change (status : partition_status)
  deriving DecidableEq

/-- The source macro `dassert(cond, ...)`: fatal when the condition is false. -/
def dassert (c : Prop) [Decidable c] : Except fault Unit :=
  if c then .ok () else .error .assertion_failed

/-- Dereference of a pointer that the source does not check. -/
def deref {α : Type} : Option α → Except fault α
  | some a => .ok a
  | none => .error .null_dereference

/-! ## The replica operations -/

section operations

variable {A L : Type}

def replica.status (r : replica A L) : partition_status := r.config.status

def replica.get_gpid (r : replica A L) : global_partition_id := r.config.gpid

/-- Modelled from the spec: `last_committed_decree()` of the replica is the last
committed decree of its prepare list. -/
def replica.last_committed_decree (r : replica A L) : decree :=
  r.prepare_list.last_committed_decree

/-- Modelled from the spec: `max_prepared_decree()` is the highest decree held in
the prepare list. -/
def replica.max_prepared_decree (r : replica A L) : decree :=
  r.prepare_list.max_decree

/-- `replica::last_durable_decree`: `return _app->last_durable_decree();`. -/
def replica.last_durable_decree (app_base : replication_app_base A) (r : replica A L) :
    Except fault decree := do
  let app ← deref r.app
  pure (app_base.last_durable_decree app)

/-- `replica::response_client_message`: nothing is sent for a null request. -/
def response_client_message (request : dsn_message_t) (error : error_code) : List effect :=
  match request with
  | none => []
  | some m => [effect.reply m error]

/-- `replica::on_client_read`. The replica state is not written by it, so only the
calls made are returned. -/
def on_client_read (r : replica A L) (meta : read_request_header) (request : dsn_message_t) :
    Except fault (List effect) :=
  if r.status = .PS_INACTIVE ∨ r.status = .PS_POTENTIAL_SECONDARY then
    pure (response_client_message request .ERR_INVALID_STATE)
  else if meta.semantic = .ReadLastUpdate ∧
      (r.status ≠ .PS_PRIMARY ∨
        r.last_committed_decree < r.primary_states.last_prepare_decree_on_new_primary) then
    pure (response_client_message request .ERR_INVALID_STATE)
  else do
    dassert (r.app.isSome)
    pure [effect.dispatch_rpc_call meta.code request]

/-- Modelled from the spec: `handle_local_failure` is not in this file of the
repository; a local failure forces the replica into the `Error` role. -/
def handle_local_failure (r : replica A L) (_error : error_code) : replica A L :=
  { r with config := { r.config with status := .PS_ERROR } }

/-- `replica::check_and_fix_commit_log_completeness`: the error code returned, the
replica with its commit log after the resets, and the resets made. -/
def check_and_fix_commit_log_completeness (app_base : replication_app_base A)
    (log_base : mutation_log L) (r : replica A L) :
    Except fault (error_code × replica A L × List effect) := do
  let mut err := error_code.ERR_OK
  let mut log ← deref r.commit_log
  let mut tr : List effect := []
  let mut mind := log_base.min_decree log r.get_gpid
  let app ← deref r.app
  if ¬ (mind ≤ app_base.last_durable_decree app) then
    err := .ERR_INCOMPLETE_DATA
    log := log_base.reset_as_commit_log log r.get_gpid (app_base.last_durable_decree app)
    tr := tr ++ [effect.reset_as_commit_log r.get_gpid (app_base.last_durable_decree app)]
  mind := log_base.max_decree log r.get_gpid
  if ¬ (mind ≥ app_base.last_committed_decree app) then
    err := .ERR_INCOMPLETE_DATA
    log := log_base.reset_as_commit_log log r.get_gpid (app_base.last_durable_decree app)
    tr := tr ++ [effect.reset_as_commit_log r.get_gpid (app_base.last_durable_decree app)]
  return (err, { r with commit_log := some log }, tr)

/-- `replica::check_state_completeness`. The last test of the source is
`if (_commit_log == nullptr)`, and its body calls `_commit_log->min_decree`. -/
def check_state_completeness (app_base : replication_app_base A) (log_base : mutation_log L)
    (r : replica A L) : Except fault Unit := do
  dassert (r.max_prepared_decree ≥ r.last_committed_decree)
  let durable ← r.last_durable_decree app_base
  dassert (r.last_committed_decree ≥ durable)
  match r.stub.log with
  | some l =>
    let mind := log_base.min_decree l r.get_gpid
    dassert (mind - r.options.staleness_for_commit + 1 ≤ durable)
  | none => pure ()
  match r.commit_log with
  | none =>
    let l ← deref r.commit_log
    let mind := log_base.min_decree l r.get_gpid
    dassert (mind ≤ durable)
  | some _ => pure ()

/-- The role specific step of `replica::execute_mutation` (the `switch`): the error
code `err`, the flag `write`, the app after the step and the calls made. -/
def execute_mutation_switch (app_base : replication_app_base A) (log_base : mutation_log L)
    (r : replica A L) (app : A) (mu : mutation) :
    Except fault (error_code × Bool × A × List effect) :=
  let d := mu.data.header.decree
  let applied := app_base.write_internal app mu
  match r.status with
  | .PS_INACTIVE =>
    if app_base.last_committed_decree app + 1 = d then
      pure (applied.1, true, applied.2, [effect.write_internal mu])
    else do
      let write : Bool :=
        match r.commit_log with
        | some l => decide (d = log_base.max_decree l r.get_gpid + 1)
        | none => false
      dassert (d ≤ app_base.last_committed_decree app)
      pure (.ERR_OK, write, app, [])
  | .PS_PRIMARY => do
    check_state_completeness app_base log_base r
    dassert (app_base.last_committed_decree app + 1 = d)
    pure (applied.1, true, applied.2, [effect.write_internal mu])
  | .PS_SECONDARY =>
    if r.secondary_states.checkpoint_task = none then do
      check_state_completeness app_base log_base r
      dassert (app_base.last_committed_decree app + 1 = d)
      pure (applied.1, true, applied.2, [effect.write_internal mu])
    else do
      dassert (r.commit_log.isSome)
      pure (.ERR_OK, true, app, [])
  | .PS_POTENTIAL_SECONDARY =>
    if d = app_base.last_committed_decree app + 1 then do
      dassert (r.potential_secondary_states.learning_status.toNat ≥
        learner_status.LearningWithPrepare.toNat)
      pure (applied.1, true, applied.2, [effect.write_internal mu])
    else do
      dassert (d ≤ app_base.last_committed_decree app)
      pure (.ERR_OK, false, app, [])
  | .PS_ERROR => pure (.ERR_OK, false, app, [])

/-- The tail of `replica::execute_mutation` after the `switch`: a failed app write
is a local failure; otherwise the mutation is appended when `write && _commit_log`. -/
def execute_mutation_finish (log_base : mutation_log L) (r : replica A L) (mu : mutation)
    (step : error_code × Bool × A × List effect) : replica A L × List effect :=
  let err := step.1
  let write := step.2.1
  let tr := step.2.2.2
  let r1 : replica A L := { r with app := some step.2.2.1 }
  if err ≠ .ERR_OK then
    (handle_local_failure r1 err, tr ++ [effect.handle_local_failure err])
  else
    match r1.commit_log with
    | some l =>
      if write then
        ({ r1 with commit_log := some (log_base.append l mu) }, tr ++ [effect.append mu])
      else (r1, tr)
    | none => (r1, tr)

/-- `replica::execute_mutation`: the replica after the call and the calls made. -/
def execute_mutation (app_base : replication_app_base A) (log_base : mutation_log L)
    (r : replica A L) (mu : mutation) : Except fault (replica A L × List effect) := do
  dassert (r.app.isSome)
  let app ← deref r.app
  let step ← execute_mutation_switch app_base log_base r app mu
  pure (execute_mutation_finish log_base r mu step)

/-- The completion callback that `execute_mutation` hands to `_commit_log->append`:
`if (err != ERR_OK) handle_local_failure(err);`. -/
def append_callback (r : replica A L) (err : error_code) (_size : Nat) :
    replica A L × List effect :=
  if err ≠ .ERR_OK then (handle_local_failure r err, [effect.handle_local_failure err])
  else (r, [])

/-- A sequence of `execute_mutation` calls, one per mutation in arrival order; the
sequence ends at the first fault. -/
def execute_mutations (app_base : replication_app_base A) (log_base : mutation_log L)
    (r : replica A L) : List mutation → Except fault (replica A L × List effect)
  | [] => pure (r, [])
  | mu :: mus => do
    let (r1, tr1) ← execute_mutation app_base log_base r mu
    let (r2, tr2) ← execute_mutations app_base log_base r1 mus
    pure (r2, tr1 ++ tr2)

end operations

/-! ## Reading a list of calls -/

/-- The mutations passed to `write_internal`, in call order. -/
def written : List effect → List mutation
  | [] => []
  | effect.write_internal mu :: tr => mu :: written tr
  | _ :: tr => written tr

/-- The mutations passed to `_commit_log->append`, in call order. -/
def appended : List effect → List mutation
  | [] => []
  | effect.append mu :: tr => mu :: appended tr
  | _ :: tr => appended tr

/-- The `(gpid, base decree)` arguments of the `reset_as_commit_log` calls. -/
def resets : List effect → List (global_partition_id × decree)
  | [] => []
  | effect.reset_as_commit_log g b :: tr => (g, b) :: resets tr
  | _ :: tr => resets tr

/-- The error codes passed to `handle_local_failure`. -/
def local_failures : List effect → List error_code
  | [] => []
  | effect.handle_local_failure e :: tr => e :: local_failures tr
  | _ :: tr => local_failures tr

/-! ## A reference app and a reference log, used for concrete runs -/

/-- The state of the reference app: its two decrees and whether its store works. -/
structure counting_app_state where
  committed : decree
  durable : decree
  healthy : Bool
  deriving DecidableEq

/-- An app whose successful `write_internal` advances the committed decree by one,
and whose `write_internal` fails, changing nothing, once the store is unhealthy. -/
def counting_app : replication_app_base counting_app_state where
  write_internal := fun a _ =>
    if a.healthy then (.ERR_OK, { a with committed := a.committed + 1 })
    else (.ERR_OTHER 1, a)
  last_committed_decree := fun a => a.committed
  last_durable_decree := fun a => a.durable

/-- The state of the reference log: the decree range it covers, and its records. -/
structure window_log_state where
  min : decree
  max : decree
  records : List mutation
  deriving DecidableEq

/-- A log whose append records the mutation and its decree as the new `max_decree`,
and whose reset sets both bounds to the base decree passed in. -/
def window_log : mutation_log window_log_state where
  min_decree := fun l _ => l.min
  max_decree := fun l _ => l.max
  append := fun l mu => { l with max := mu.data.header.decree, records := l.records ++ [mu] }
  reset_as_commit_log := fun _ _ base => { min := base, max := base, records := [] }

/-- The mutation of partition `1.0` with ballot 1 and the given decree. -/
def mutation_at (d : decree) : mutation :=
  { data := { header := { gpid := { app_id := 1, pidx := 0 }, ballot := 1, decree := d,
                          log_offset := 0 },
              updates := [] },
    logged := true }

/-- A replica of partition `1.0` in the given role, with the reference app at the
given committed and durable decrees, the given commit log, a prepare list whose
committed and highest decrees are `committed`, no shared log and no checkpoint. -/
def replica_at (st : partition_status) (committed durable : decree)
    (log : Option window_log_state) : replica counting_app_state window_log_state :=
  { stub := { log := none },
    app := some { committed := committed, durable := durable, healthy := true },
    check_timer := none,
    options := { staleness_for_commit := 10, max_mutation_count_in_prepare_list := 110 },
    inactive_is_transient := false,
    prepare_list := { last_committed_decree := committed, max_decree := committed,
                      mutations := [] },
    config := { gpid := { app_id := 1, pidx := 0 }, ballot := 1, status := st },
    primary_states := { membership := { gpid := { app_id := 1, pidx := 0 }, ballot := 1,
                                        primary := 1, secondaries := [2, 3] },
                        last_prepare_decree_on_new_primary := 0 },
    secondary_states := { checkpoint_task := none },
    potential_secondary_states := { learning_status := .LearningWithPrepare },
    commit_log := log }

/-! ## Probes and shutdown -/

section probes

variable {A L : Type}

/-- `replica::group_configuration`: the value returned and the value of the out
parameter `config` after the call. The function is `const`: the replica is only
read. -/
def group_configuration (r : replica A L) (config : partition_configuration) :
    Bool × partition_configuration :=
  if partition_status.PS_PRIMARY ≠ r.status then (false, config)
  else (true, r.primary_states.membership)

/-- The `while (true)` loop of `replica::last_prepared_decree`, run for at most `fuel`
lookups: the decree `start` at the `break` and the number of calls of
`get_mutation_by_decree` made, or `none` when the fuel runs out before the `break`. -/
def last_prepared_decree_loop (pl : prepare_list) :
    Nat → decree → ballot → Option (decree × Nat)
  | 0, _, _ => none
  | fuel + 1, start, lastBallot =>
    match pl.get_mutation_by_decree (start + 1) with
    | none => some (start, 1)
    | some mu =>
      if mu.data.header.ballot < lastBallot ∨ mu.is_logged = false then some (start, 1)
      else
        match last_prepared_decree_loop pl fuel (start + 1) mu.data.header.ballot with
        | none => none
        | some res => some (res.1, res.2 + 1)

/-- The number of entries of the prepare list whose decree is above `start`. -/
def prepare_list.count_above (pl : prepare_list) (start : decree) : Nat :=
  (pl.mutations.filter (fun mu => decide (start < mu.data.header.decree))).length

/-- `replica::last_prepared_decree`, with one lookup more than the prepare list has
entries as fuel. The function is `const`: the replica is only read. -/
def last_prepared_decree (r : replica A L) : Option decree :=
  match last_prepared_decree_loop r.prepare_list (r.prepare_list.mutations.length + 1)
      r.last_committed_decree 0 with
  | none => none
  | some res => some res.1

/-- Modelled from the spec: `update_local_configuration_with_no_ballot_change` is
not in this file of the repository; it forces the role, and leaves the ballot. -/
def update_local_configuration_with_no_ballot_change (r : replica A L)
    (status : partition_status) : replica A L :=
  { r with config := { r.config with status := status } }

/-- Modelled from the spec: `cleanup_preparing_mutations` is not in this file of the
repository; it discards the preparing mutations, those above the last committed
decree. -/
def cleanup_preparing_mutations (r : replica A L) (_is_primary : Bool) : replica A L :=
  { r with prepare_list :=
      { r.prepare_list with
        mutations := r.prepare_list.mutations.filter
          (fun mu => decide (mu.data.header.decree ≤ r.prepare_list.last_committed_decree)) } }

/-- Modelled from the spec: leaving the primary role clears the membership cache. -/
def primary_context.cleanup (ps : primary_context) : primary_context :=
  { membership := { gpid := ps.membership.gpid, ballot := 0, primary := 0, secondaries := [] },
    last_prepare_decree_on_new_primary := 0 }

/-- Modelled from the spec: leaving the secondary role clears the checkpoint task
handle. -/
def secondary_context.cleanup (_ss : secondary_context) : secondary_context :=
  { checkpoint_task := none }

/-- Modelled from the spec: leaving the potential secondary role clears the
learning progress. -/
def potential_secondary_context.cleanup (_pss : potential_secondary_context)
    (_cleanup_all : Bool) : potential_secondary_context :=
  { learning_status := .Learning_INVALID }

/-- The first statement of `replica::close`: cancel and detach the check timer. -/
def close_timer (r : replica A L) : replica A L × List effect :=
  match r.check_timer with
  | some _ => ({ r with check_timer := none }, [effect.cancel_timer true])
  | none => (r, [])

/-- The second statement of `replica::close`: force the role to `Inactive`, unless
it is `Inactive` or `Error`. -/
def close_role (r : replica A L) : replica A L × List effect :=
  if r.status ≠ .PS_INACTIVE ∧ r.status ≠ .PS_ERROR then
    (update_local_configuration_with_no_ballot_change r .PS_INACTIVE,
      [effect.update_local_configuration_with_no_ballot_change .PS_INACTIVE])
  else (r, [])

/-- The four cleanup calls of `replica::close`. -/
def close_cleanup (r : replica A L) : replica A L :=
  let r1 := cleanup_preparing_mutations r true
  { r1 with
    primary_states := r1.primary_states.cleanup,
    secondary_states := r1.secondary_states.cleanup,
    potential_secondary_states := r1.potential_secondary_states.cleanup true }

/-- The commit log statement of `replica::close`: close and detach the commit log. -/
def close_log (r : replica A L) : replica A L × List effect :=
  match r.commit_log with
  | some _ => ({ r with commit_log := none }, [effect.close_commit_log])
  | none => (r, [])

/-- The last statement of `replica::close`: close, delete and detach the app. -/
def close_the_app (r : replica A L) : replica A L × List effect :=
  match r.app with
  | some _ => ({ r with app := none }, [effect.close_app false])
  | none => (r, [])

/-- `replica::close`: the replica after the call and the calls made. It has no
assertion and dereferences only pointers it has tested. -/
def close (r : replica A L) : replica A L × List effect :=
  let s1 := close_timer r
  let s2 := close_role s1.1
  let r3 := close_cleanup s2.1
  let s4 := close_log r3
  let s5 := close_the_app s4.1
  (s5.1, s1.2 ++ s2.2 ++ s4.2 ++ s5.2)

end probes

end dsn.replication

/-! ## The fallback byte order macros of `include/dsn/internal/ports.h`

The operands of the macros are unsigned; the arithmetic is done in the type the
operand is promoted to, of `w` bits: 32 for a 16 bit or a 32 bit operand, 64 for a
64 bit operand. Right shift, `&` and `|` cannot overflow; left shift loses the bits
shifted out of the `w` bits.
-/

namespace dsn.ports

/-- The operator `<<` in an unsigned type of `w` bits. -/
def shl (w a k : Nat) : Nat := (a <<< k) % 2 ^ w

/-- `# define be16toh(x) ( (x)>>8 | ( (x) &255 )<<8 )`. -/
def be16toh (w x : Nat) : Nat := (x >>> 8) ||| shl w (x &&& 255) 8

/-- `# define be32toh(x) ( (be16toh((x)>>16)&65535) | (be16toh((x)&65535)<<16) )`. -/
def be32toh (w x : Nat) : Nat :=
  (be16toh w (x >>> 16) &&& 65535) ||| shl w (be16toh w (x &&& 65535)) 16

/-- `# define be64toh(x) ( (be32toh((x)>>32)&0xffffffff) |
( be32toh( (x)&0xffffffff ) << 32 ) )`. -/
def be64toh (w x : Nat) : Nat :=
  (be32toh w (x >>> 32) &&& 0xffffffff) ||| shl w (be32toh w (x &&& 0xffffffff)) 32

/-- The `n` low bytes of `x`, the least significant one first. -/
def bytes_le : Nat → Nat → List Nat
  | 0, _ => []
  | n + 1, x => x % 256 :: bytes_le n (x / 256)

/-- The number whose bytes, the least significant one first, are the given ones. -/
def of_bytes_le : List Nat → Nat
  | [] => 0
  | b :: bs => b + 256 * of_bytes_le bs

/-- The value `x` of `n` bytes with its bytes in reverse order. -/
def byte_reverse (n x : Nat) : Nat := of_bytes_le (bytes_le n x).reverse

end dsn.ports

namespace dsn.replication

/-! ## Helper lemmas -/

section lemmas

variable {A L : Type}

theorem written_append (t1 t2 : List effect) : written (t1 ++ t2) = written t1 ++ written t2 := by
  induction t1 with
  | nil => rfl
  | cons e t ih => cases e <;> simp [written, ih]

theorem resets_append (t1 t2 : List effect) : resets (t1 ++ t2) = resets t1 ++ resets t2 := by
  induction t1 with
  | nil => rfl
  | cons e t ih => cases e <;> simp [resets, ih]

/-- With the app attached, `execute_mutation` is the `switch` followed by the tail. -/
theorem execute_mutation_eq (app_base : replication_app_base A) (log_base : mutation_log L)
    (r : replica A L) (mu : mutation) (a : A) (ha : r.app = some a) :
    execute_mutation app_base log_base r mu =
      (execute_mutation_switch app_base log_base r a mu).map
        (execute_mutation_finish log_base r mu) := by
  unfold execute_mutation
  simp only [ha, dassert, deref, Option.isSome_some, if_true, bind, Except.bind, pure,
    Except.pure]
  cases execute_mutation_switch app_base log_base r a mu <;> rfl

/-- Without an app, `execute_mutation` stops on its first assertion. -/
theorem execute_mutation_no_app (app_base : replication_app_base A) (log_base : mutation_log L)
    (r : replica A L) (mu : mutation) (ha : r.app = none) :
    execute_mutation app_base log_base r mu = .error .assertion_failed := by
  unfold execute_mutation
  simp [ha, dassert, bind, Except.bind]

/-- A completed `execute_mutation` had an app, and its `switch` completed. -/
theorem execute_mutation_ok (app_base : replication_app_base A) (log_base : mutation_log L)
    (r r1 : replica A L) (mu : mutation) (tr : List effect)
    (h : execute_mutation app_base log_base r mu = .ok (r1, tr)) :
    ∃ a step, r.app = some a ∧ execute_mutation_switch app_base log_base r a mu = .ok step ∧
      execute_mutation_finish log_base r mu step = (r1, tr) := by
  cases ha : r.app with
  | none => rw [execute_mutation_no_app app_base log_base r mu ha] at h; cases h
  | some a =>
    rw [execute_mutation_eq app_base log_base r mu a ha] at h
    cases hs : execute_mutation_switch app_base log_base r a mu with
    | error f => rw [hs] at h; cases h
    | ok step =>
      rw [hs] at h
      refine ⟨a, step, rfl, hs, ?_⟩
      simpa [Except.map] using h

/-- What a completed `switch` can have done: nothing, or one `write_internal` of the
mutation, whose decree is then the next one of the app. -/
theorem switch_ok (app_base : replication_app_base A) (log_base : mutation_log L)
    (r : replica A L) (app : A) (mu : mutation) (step : error_code × Bool × A × List effect)
    (h : execute_mutation_switch app_base log_base r app mu = .ok step) :
    (step.2.2.2 = [] ∧ step.2.2.1 = app ∧ step.1 = .ERR_OK) ∨
    (step.2.2.2 = [effect.write_internal mu] ∧ step.2.1 = true ∧
      mu.data.header.decree = app_base.last_committed_decree app + 1 ∧
      step.1 = (app_base.write_internal app mu).1 ∧
      step.2.2.1 = (app_base.write_internal app mu).2) := by
  unfold execute_mutation_switch at h
  cases hs : r.status <;> simp only [hs] at h
  · by_cases hd : app_base.last_committed_decree app + 1 = mu.data.header.decree
    · simp only [hd, if_true, pure, Except.pure, Except.ok.injEq] at h
      subst h
      exact Or.inr ⟨rfl, rfl, hd.symm, rfl, rfl⟩
    · by_cases hd2 : mu.data.header.decree ≤ app_base.last_committed_decree app
      · simp only [hd, hd2, if_false, if_true, dassert, bind, Except.bind, pure, Except.pure,
          Except.ok.injEq] at h
        subst h
        exact Or.inl ⟨rfl, rfl, rfl⟩
      · simp [hd, hd2, dassert, bind, Except.bind] at h
  · simp only [pure, Except.pure, Except.ok.injEq] at h
    subst h
    exact Or.inl ⟨rfl, rfl, rfl⟩
  · cases hc : check_state_completeness app_base log_base r with
    | error f => simp [hc, bind, Except.bind] at h
    | ok u =>
      by_cases hd : app_base.last_committed_decree app + 1 = mu.data.header.decree
      · simp only [hc, hd, if_true, dassert, bind, Except.bind, pure, Except.pure,
          Except.ok.injEq] at h
        subst h
        exact Or.inr ⟨rfl, rfl, hd.symm, rfl, rfl⟩
      · simp [hc, hd, dassert, bind, Except.bind] at h
  · by_cases hk : r.secondary_states.checkpoint_task = none
    · cases hc : check_state_completeness app_base log_base r with
      | error f => simp [hk, hc, bind, Except.bind] at h
      | ok u =>
        by_cases hd : app_base.last_committed_decree app + 1 = mu.data.header.decree
        · simp only [hk, hc, hd, if_true, dassert, bind, Except.bind, pure, Except.pure,
            Except.ok.injEq] at h
          subst h
          exact Or.inr ⟨rfl, rfl, hd.symm, rfl, rfl⟩
        · simp [hk, hc, hd, dassert, bind, Except.bind] at h
    · by_cases hl : r.commit_log.isSome = true
      · simp only [hk, hl, if_false, if_true, dassert, bind, Except.bind, pure, Except.pure,
          Except.ok.injEq] at h
        subst h
        exact Or.inl ⟨rfl, rfl, rfl⟩
      · simp [hk, hl, dassert, bind, Except.bind] at h
  · by_cases hd : mu.data.header.decree = app_base.last_committed_decree app + 1
    · by_cases hls : r.potential_secondary_states.learning_status.toNat ≥
          learner_status.LearningWithPrepare.toNat
      · simp only [hd, hls, if_true, dassert, bind, Except.bind, pure, Except.pure,
          Except.ok.injEq] at h
        subst h
        exact Or.inr ⟨rfl, rfl, hd, rfl, rfl⟩
      · simp [hd, hls, dassert, bind, Except.bind] at h
    · by_cases hd2 : mu.data.header.decree ≤ app_base.last_committed_decree app
      · simp only [hd, hd2, if_false, if_true, dassert, bind, Except.bind, pure, Except.pure,
          Except.ok.injEq] at h
        subst h
        exact Or.inl ⟨rfl, rfl, rfl⟩
      · simp [hd, hd2, dassert, bind, Except.bind] at h

end lemmas

section lemmas2

variable {A L : Type}

theorem finish_app (log_base : mutation_log L) (r : replica A L) (mu : mutation)
    (step : error_code × Bool × A × List effect) :
    (execute_mutation_finish log_base r mu step).1.app = some step.2.2.1 := by
  unfold execute_mutation_finish
  by_cases he : step.1 = .ERR_OK
  · cases hl : r.commit_log <;> cases hw : step.2.1 <;> simp [he, hl, hw]
  · simp [he, handle_local_failure]

theorem finish_written (log_base : mutation_log L) (r : replica A L) (mu : mutation)
    (step : error_code × Bool × A × List effect) :
    written (execute_mutation_finish log_base r mu step).2 = written step.2.2.2 := by
  unfold execute_mutation_finish
  by_cases he : step.1 = .ERR_OK
  · cases hl : r.commit_log <;> cases hw : step.2.1 <;>
      simp [he, hl, hw, written_append, written]
  · simp [he, written_append, written]

theorem finish_status (log_base : mutation_log L) (r : replica A L) (mu : mutation)
    (step : error_code × Bool × A × List effect) :
    (execute_mutation_finish log_base r mu step).1.status =
      if step.1 = .ERR_OK then r.status else .PS_ERROR := by
  unfold execute_mutation_finish
  by_cases he : step.1 = .ERR_OK
  · cases hl : r.commit_log <;> cases hw : step.2.1 <;> simp [he, hl, hw, replica.status]
  · simp [he, handle_local_failure, replica.status]

/-- One completed call, as seen by the app: either no write and the same app, or
one write of this mutation at the next decree of the app. -/
theorem execute_mutation_step (app_base : replication_app_base A) (log_base : mutation_log L)
    (r r1 : replica A L) (mu : mutation) (tr : List effect) (a : A) (ha : r.app = some a)
    (h : execute_mutation app_base log_base r mu = .ok (r1, tr)) :
    (written tr = [] ∧ r1.app = some a ∧ (r.status = .PS_ERROR → r1.status = .PS_ERROR)) ∨
    (written tr = [mu] ∧ r.status ≠ .PS_ERROR ∧
      mu.data.header.decree = app_base.last_committed_decree a + 1 ∧
      r1.app = some (app_base.write_internal a mu).2 ∧
      ((app_base.write_internal a mu).1 ≠ .ERR_OK → r1.status = .PS_ERROR)) := by
  obtain ⟨a1, step, ha1, hs, hf⟩ := execute_mutation_ok app_base log_base r r1 mu tr h
  rw [ha] at ha1
  cases ha1
  have happ := finish_app log_base r mu step
  have hwr := finish_written log_base r mu step
  have hst := finish_status log_base r mu step
  rw [hf] at happ hwr hst
  simp only at happ hwr hst
  rcases switch_ok app_base log_base r a mu step hs with ⟨h1, h2, h3⟩ | ⟨h1, _, h3, h4, h5⟩
  · left
    refine ⟨by rw [hwr, h1]; rfl, by rw [happ, h2], ?_⟩
    intro hE
    rw [hst, h3, if_pos rfl, hE]
  · right
    refine ⟨by rw [hwr, h1]; rfl, ?_, h3, by rw [happ, h5], ?_⟩
    · intro hE
      unfold execute_mutation_switch at hs
      simp only [hE, pure, Except.pure, Except.ok.injEq] at hs
      rw [← hs] at h1
      simp at h1
    · intro hne
      rw [hst, h4, if_neg hne]

/-- In role `Error` no call of a sequence writes to the app. -/
theorem execute_mutations_error (app_base : replication_app_base A) (log_base : mutation_log L)
    (mus : List mutation) :
    ∀ (r r1 : replica A L) (tr : List effect), r.status = .PS_ERROR →
      execute_mutations app_base log_base r mus = .ok (r1, tr) → written tr = [] := by
  induction mus with
  | nil =>
    intro r r1 tr _ h
    simp only [execute_mutations, pure, Except.pure, Except.ok.injEq, Prod.mk.injEq] at h
    rw [← h.2]; rfl
  | cons mu mus ih =>
    intro r r1 tr hE h
    simp only [execute_mutations, bind, Except.bind, pure, Except.pure] at h
    cases h1 : execute_mutation app_base log_base r mu with
    | error f => simp [h1] at h
    | ok p1 =>
      obtain ⟨r2, tr1⟩ := p1
      simp only [h1] at h
      cases h2 : execute_mutations app_base log_base r2 mus with
      | error f => simp [h2] at h
      | ok p2 =>
        obtain ⟨r3, tr2⟩ := p2
        simp only [h2, Except.ok.injEq, Prod.mk.injEq] at h
        obtain ⟨a, step, ha, _, _⟩ := execute_mutation_ok app_base log_base r r2 mu tr1 h1
        rcases execute_mutation_step app_base log_base r r2 mu tr1 a ha h1 with
          ⟨hw, _, hst⟩ | ⟨_, hne, _⟩
        · rw [← h.2, written_append, hw, ih r2 r3 tr2 (hst hE) h2]; rfl
        · exact absurd hE hne

end lemmas2

section lemmas3

variable {A L : Type}

/-- With an app whose successful `write_internal` advances the committed decree by
one, the decrees written by a sequence of calls are the next ones of the app. -/
theorem execute_mutations_written (app_base : replication_app_base A)
    (log_base : mutation_log L)
    (hadv : ∀ a mu, (app_base.write_internal a mu).1 = .ERR_OK →
      app_base.last_committed_decree (app_base.write_internal a mu).2 =
        app_base.last_committed_decree a + 1)
    (mus : List mutation) :
    ∀ (r r1 : replica A L) (tr : List effect) (a : A), r.app = some a →
      execute_mutations app_base log_base r mus = .ok (r1, tr) →
      (written tr).map (fun mu => mu.data.header.decree) =
        (List.range (written tr).length).map
          (fun (i : Nat) => app_base.last_committed_decree a + 1 + (i : Int)) := by
  induction mus with
  | nil =>
    intro r r1 tr a _ h
    simp only [execute_mutations, pure, Except.pure, Except.ok.injEq, Prod.mk.injEq] at h
    rw [← h.2]; rfl
  | cons mu mus ih =>
    intro r r1 tr a ha h
    simp only [execute_mutations, bind, Except.bind, pure, Except.pure] at h
    cases h1 : execute_mutation app_base log_base r mu with
    | error f => simp [h1] at h
    | ok p1 =>
      obtain ⟨r2, tr1⟩ := p1
      simp only [h1] at h
      cases h2 : execute_mutations app_base log_base r2 mus with
      | error f => simp [h2] at h
      | ok p2 =>
        obtain ⟨r3, tr2⟩ := p2
        simp only [h2, Except.ok.injEq, Prod.mk.injEq] at h
        rw [← h.2, written_append]
        rcases execute_mutation_step app_base log_base r r2 mu tr1 a ha h1 with
          ⟨hw, happ, _⟩ | ⟨hw, _, hd, happ, hst⟩
        · rw [hw]
          exact ih r2 r3 tr2 a happ h2
        · rw [hw]
          by_cases he : (app_base.write_internal a mu).1 = .ERR_OK
          · have hih := ih r2 r3 tr2 _ happ h2
            rw [hadv a mu he] at hih
            simp only [List.singleton_append, List.map_cons, List.length_cons,
              List.range_succ_eq_map, List.map_map, hih, hd]
            congr 1
            · simp
            · apply List.map_congr_left
              intro i _
              simp only [Function.comp, Nat.cast_succ]
              ring
          · have hnil := execute_mutations_error app_base log_base mus r2 r3 tr2 (hst he) h2
            rw [hnil]
            simp [hd, List.range_succ]

end lemmas3

/-! ## C1: writes reach the app in decree order -/

/-- C1: for every replica state and every mutation, a call of `execute_mutation` that
completes and calls `write_internal` calls it exactly once, with this mutation, and
the decree of the mutation is then `app.last_committed_decree() + 1` for the app as
it is at the call. Hence, for an app whose successful `write_internal` advances the
committed decree by one, the decrees written by any sequence of calls are the next
ones of the app, one by one: increasing, without a gap and without a repeat. -/
theorem C1_execute_mutation_applies_in_decree_order {A L : Type}
    (app_base : replication_app_base A) (log_base : mutation_log L) :
    (∀ (r r1 : replica A L) (mu : mutation) (tr : List effect),
      execute_mutation app_base log_base r mu = .ok (r1, tr) → written tr ≠ [] →
        written tr = [mu] ∧
        ∃ a, r.app = some a ∧
          mu.data.header.decree = app_base.last_committed_decree a + 1) ∧
    ((∀ a mu, (app_base.write_internal a mu).1 = .ERR_OK →
        app_base.last_committed_decree (app_base.write_internal a mu).2 =
          app_base.last_committed_decree a + 1) →
      ∀ (r r1 : replica A L) (mus : List mutation) (tr : List effect) (a : A),
        r.app = some a → execute_mutations app_base log_base r mus = .ok (r1, tr) →
          (written tr).map (fun mu => mu.data.header.decree) =
            (List.range (written tr).length).map
              (fun (i : Nat) => app_base.last_committed_decree a + 1 + (i : Int))) := by
  refine ⟨?_, ?_⟩
  · intro r r1 mu tr h hne
    obtain ⟨a, _, ha, _, _⟩ := execute_mutation_ok app_base log_base r r1 mu tr h
    rcases execute_mutation_step app_base log_base r r1 mu tr a ha h with
      ⟨hw, _, _⟩ | ⟨hw, _, hd, _, _⟩
    · exact absurd hw hne
    · exact ⟨hw, a, ha, hd⟩
  · intro hadv r r1 mus tr a ha h
    exact execute_mutations_written app_base log_base hadv mus r r1 tr a ha h

/-- C1, at a concrete run: a primary at committed decree 0 is given decrees 1 and 2;
both are written, in this order. -/
theorem C1_execute_mutation_applies_in_decree_order_witness :
    execute_mutations counting_app window_log
        (replica_at .PS_PRIMARY 0 0 (some { min := 0, max := 0, records := [] }))
        [mutation_at 1, mutation_at 2] =
      .ok ({ replica_at .PS_PRIMARY 0 0
               (some { min := 0, max := 2, records := [mutation_at 1, mutation_at 2] }) with
             app := some { committed := 2, durable := 0, healthy := true } },
           [effect.write_internal (mutation_at 1), effect.append (mutation_at 1),
            effect.write_internal (mutation_at 2), effect.append (mutation_at 2)]) ∧
    (written [effect.write_internal (mutation_at 1), effect.append (mutation_at 1),
        effect.write_internal (mutation_at 2), effect.append (mutation_at 2)]).map
        (fun mu => mu.data.header.decree) =
      (List.range (written [effect.write_internal (mutation_at 1), effect.append (mutation_at 1),
        effect.write_internal (mutation_at 2), effect.append (mutation_at 2)]).length).map
        (fun (i : Nat) => (0 : Int) + 1 + (i : Int)) :=
  ⟨rfl,
   (C1_execute_mutation_applies_in_decree_order counting_app window_log).2
     (by
       intro a mu h
       simp only [counting_app] at h ⊢
       split at h
       · rename_i hh; simp [hh]
       · cases h)
     (replica_at .PS_PRIMARY 0 0 (some { min := 0, max := 0, records := [] }))
     { replica_at .PS_PRIMARY 0 0
         (some { min := 0, max := 2, records := [mutation_at 1, mutation_at 2] }) with
       app := some { committed := 2, durable := 0, healthy := true } }
     [mutation_at 1, mutation_at 2]
     [effect.write_internal (mutation_at 1), effect.append (mutation_at 1),
      effect.write_internal (mutation_at 2), effect.append (mutation_at 2)]
     { committed := 0, durable := 0, healthy := true } rfl rfl⟩

/-! ## C2, C3: client reads -/

/-- C2, as stated, fails on the code: a plain read in role `PotentialSecondary` is
rejected with `ERR_INVALID_STATE`, and plain reads in roles `Secondary` and `Error`
are dispatched to the app. -/
theorem C2_on_client_read_role_gate_counterexample :
    on_client_read (replica_at .PS_POTENTIAL_SECONDARY 10 3 none)
        { semantic := .ReadOutdated, code := "RPC_READ" } (some 7) =
      .ok [effect.reply 7 .ERR_INVALID_STATE] ∧
    on_client_read (replica_at .PS_SECONDARY 10 3 none)
        { semantic := .ReadOutdated, code := "RPC_READ" } (some 7) =
      .ok [effect.dispatch_rpc_call "RPC_READ" (some 7)] ∧
    on_client_read (replica_at .PS_ERROR 10 3 none)
        { semantic := .ReadOutdated, code := "RPC_READ" } (some 7) =
      .ok [effect.dispatch_rpc_call "RPC_READ" (some 7)] :=
  ⟨rfl, rfl, rfl⟩

/-- C2, amended: `on_client_read` replies `ERR_INVALID_STATE`, and does not dispatch
the read, whenever the status is `Inactive` or `PotentialSecondary`, whatever the
read semantic; a plain (not `ReadLastUpdate`) read in any other role, `Primary`,
`Secondary` or `Error`, is not rejected: with the app attached it is dispatched. -/
theorem C2_on_client_read_role_gate {A L : Type} (r : replica A L)
    (meta : read_request_header) (m : Nat) :
    ((r.status = .PS_INACTIVE ∨ r.status = .PS_POTENTIAL_SECONDARY) →
      on_client_read r meta (some m) = .ok [effect.reply m .ERR_INVALID_STATE]) ∧
    (¬ (r.status = .PS_INACTIVE ∨ r.status = .PS_POTENTIAL_SECONDARY) →
      meta.semantic ≠ .ReadLastUpdate → r.app.isSome = true →
      on_client_read r meta (some m) = .ok [effect.dispatch_rpc_call meta.code (some m)]) := by
  refine ⟨?_, ?_⟩
  · intro h
    unfold on_client_read
    rw [if_pos h]
    rfl
  · intro h hsem happ
    unfold on_client_read
    rw [if_neg h, if_neg (fun hc => hsem hc.1)]
    simp [dassert, happ, bind, Except.bind, pure, Except.pure]

/-- C2, amended, at concrete reads: a read on a potential secondary is rejected, and
a stale read on a secondary is dispatched. -/
theorem C2_on_client_read_role_gate_witness :
    on_client_read (replica_at .PS_POTENTIAL_SECONDARY 10 3 none)
        { semantic := .ReadOutdated, code := "RPC_READ" } (some 7) =
      .ok [effect.reply 7 .ERR_INVALID_STATE] ∧
    on_client_read (replica_at .PS_SECONDARY 10 3 none)
        { semantic := .ReadOutdated, code := "RPC_READ" } (some 7) =
      .ok [effect.dispatch_rpc_call "RPC_READ" (some 7)] :=
  ⟨(C2_on_client_read_role_gate (replica_at .PS_POTENTIAL_SECONDARY 10 3 none)
      { semantic := .ReadOutdated, code := "RPC_READ" } 7).1 (Or.inr rfl),
   (C2_on_client_read_role_gate (replica_at .PS_SECONDARY 10 3 none)
      { semantic := .ReadOutdated, code := "RPC_READ" } 7).2 (by decide) (by decide) rfl⟩

/-- C3: for a read whose semantic is `ReadLastUpdate`, with the app attached, the
read is dispatched to the app if and only if the status is `Primary` and
`last_committed_decree() >= _primary_states.last_prepare_decree_on_new_primary`;
in every other case, app attached or not, the reply is `ERR_INVALID_STATE` and the
app is not called. -/
theorem C3_on_client_read_last_update {A L : Type} (r : replica A L)
    (meta : read_request_header) (m : Nat) (hsem : meta.semantic = .ReadLastUpdate) :
    (r.app.isSome = true →
      (on_client_read r meta (some m) = .ok [effect.dispatch_rpc_call meta.code (some m)] ↔
        (r.status = .PS_PRIMARY ∧
          r.last_committed_decree ≥ r.primary_states.last_prepare_decree_on_new_primary))) ∧
    (¬ (r.status = .PS_PRIMARY ∧
          r.last_committed_decree ≥ r.primary_states.last_prepare_decree_on_new_primary) →
      on_client_read r meta (some m) = .ok [effect.reply m .ERR_INVALID_STATE]) := by
  have hrej : ¬ (r.status = .PS_PRIMARY ∧
        r.last_committed_decree ≥ r.primary_states.last_prepare_decree_on_new_primary) →
      on_client_read r meta (some m) = .ok [effect.reply m .ERR_INVALID_STATE] := by
    intro hc
    unfold on_client_read
    by_cases h1 : r.status = .PS_INACTIVE ∨ r.status = .PS_POTENTIAL_SECONDARY
    · rw [if_pos h1]; rfl
    · rw [if_neg h1, if_pos]
      · rfl
      · refine ⟨hsem, ?_⟩
        by_cases hp : r.status = .PS_PRIMARY
        · right
          exact lt_of_not_ge (fun hge => hc ⟨hp, hge⟩)
        · exact Or.inl hp
  refine ⟨?_, hrej⟩
  intro happ
  constructor
  · intro hd
    by_contra hc
    rw [hrej hc] at hd
    simp at hd
  · intro hc
    unfold on_client_read
    rw [if_neg, if_neg]
    · simp [dassert, happ, bind, Except.bind, pure, Except.pure]
    · intro hx
      rcases hx.2 with hne | hlt
      · exact hne hc.1
      · exact absurd hc.2 (not_le.mpr hlt)
    · rw [hc.1]; decide

/-- C3, at concrete reads: on a primary at committed decree 10 whose election
recorded decree 0 the read is dispatched; on a secondary it is rejected. -/
theorem C3_on_client_read_last_update_witness :
    on_client_read (replica_at .PS_PRIMARY 10 3 none)
        { semantic := .ReadLastUpdate, code := "RPC_READ" } (some 7) =
      .ok [effect.dispatch_rpc_call "RPC_READ" (some 7)] ∧
    on_client_read (replica_at .PS_SECONDARY 10 3 none)
        { semantic := .ReadLastUpdate, code := "RPC_READ" } (some 7) =
      .ok [effect.reply 7 .ERR_INVALID_STATE] :=
  ⟨((C3_on_client_read_last_update (replica_at .PS_PRIMARY 10 3 none)
      { semantic := .ReadLastUpdate, code := "RPC_READ" } 7 rfl).1 rfl).2
      ⟨rfl, by decide⟩,
   (C3_on_client_read_last_update (replica_at .PS_SECONDARY 10 3 none)
      { semantic := .ReadLastUpdate, code := "RPC_READ" } 7 rfl).2 (by decide)⟩

/-! ## C4: role `Inactive`, decrees above the next one -/

/-- C4, as stated, fails on the code: an inactive replica at committed decree 10 that
is given decree 13 stops on the assertion `d <= _app->last_committed_decree()`. -/
theorem C4_inactive_future_decree_counterexample :
    execute_mutation counting_app window_log (replica_at .PS_INACTIVE 10 3 none)
      (mutation_at 13) = .error .assertion_failed :=
  rfl

/-- C4, amended: in role `Inactive`, a mutation whose decree is greater than
`app.last_committed_decree() + 1` makes `execute_mutation` stop on the fatal
assertion `d <= app.last_committed_decree()`, before any call on the app or on the
commit log; a mutation whose decree is `app.last_committed_decree() + 1` completes,
and `write_internal` is called with it, first and once. -/
theorem C4_inactive_future_decree {A L : Type} (app_base : replication_app_base A)
    (log_base : mutation_log L) (r : replica A L) (mu : mutation) (a : A)
    (ha : r.app = some a) (hst : r.status = .PS_INACTIVE) :
    (mu.data.header.decree > app_base.last_committed_decree a + 1 →
      execute_mutation app_base log_base r mu = .error .assertion_failed) ∧
    (mu.data.header.decree = app_base.last_committed_decree a + 1 →
      ∃ r1 tr, execute_mutation app_base log_base r mu =
          .ok (r1, effect.write_internal mu :: tr) ∧
        written tr = [] ∧ r1.app = some (app_base.write_internal a mu).2) := by
  rw [execute_mutation_eq app_base log_base r mu a ha]
  unfold execute_mutation_switch
  simp only [hst]
  refine ⟨?_, ?_⟩
  · intro hgt
    have h1 : ¬ (app_base.last_committed_decree a + 1 = mu.data.header.decree) := by
      intro h; linarith
    have h2 : ¬ (mu.data.header.decree ≤ app_base.last_committed_decree a) := by
      intro h; linarith
    simp [h1, h2, dassert, bind, Except.bind, Except.map]
  · intro heq
    simp only [heq, if_true, pure, Except.pure, Except.map]
    have hw := finish_written log_base r mu
      ((app_base.write_internal a mu).1, true, (app_base.write_internal a mu).2,
        [effect.write_internal mu])
    have happ := finish_app log_base r mu
      ((app_base.write_internal a mu).1, true, (app_base.write_internal a mu).2,
        [effect.write_internal mu])
    refine ⟨_, ((execute_mutation_finish log_base r mu
      ((app_base.write_internal a mu).1, true, (app_base.write_internal a mu).2,
        [effect.write_internal mu])).2).tail, ?_, ?_, happ⟩
    · unfold execute_mutation_finish
      by_cases he : (app_base.write_internal a mu).1 = .ERR_OK
      · cases hl : r.commit_log <;> simp [he, hl]
      · simp [he]
    · revert hw
      unfold execute_mutation_finish
      by_cases he : (app_base.write_internal a mu).1 = .ERR_OK
      · cases hl : r.commit_log <;> simp [he, hl, written]
      · simp [he, written]

/-- C4, amended, at the decrees of the claim: committed decree 10; decree 13 stops on
the assertion, decree 11 is written to the app. -/
theorem C4_inactive_future_decree_witness :
    execute_mutation counting_app window_log (replica_at .PS_INACTIVE 10 3 none)
      (mutation_at 13) = .error .assertion_failed ∧
    ∃ r1 tr, execute_mutation counting_app window_log (replica_at .PS_INACTIVE 10 3 none)
        (mutation_at 11) = .ok (r1, effect.write_internal (mutation_at 11) :: tr) ∧
      written tr = [] ∧
      r1.app = some (counting_app.write_internal
        { committed := 10, durable := 3, healthy := true } (mutation_at 11)).2 :=
  ⟨(C4_inactive_future_decree counting_app window_log (replica_at .PS_INACTIVE 10 3 none)
      (mutation_at 13) { committed := 10, durable := 3, healthy := true } rfl rfl).1
      (by decide),
   (C4_inactive_future_decree counting_app window_log (replica_at .PS_INACTIVE 10 3 none)
      (mutation_at 11) { committed := 10, durable := 3, healthy := true } rfl rfl).2 rfl⟩

/-! ## C5: the check made before a primary or secondary apply -/

section checked

variable {A L : Type}

/-- In role `Primary`, and in role `Secondary` without a checkpoint, the `switch` is
`check_state_completeness`, the assertion on the decree, and the write. -/
theorem switch_checked (app_base : replication_app_base A) (log_base : mutation_log L)
    (r : replica A L) (a : A) (mu : mutation)
    (hrole : r.status = .PS_PRIMARY ∨
      (r.status = .PS_SECONDARY ∧ r.secondary_states.checkpoint_task = none)) :
    execute_mutation_switch app_base log_base r a mu =
      match check_state_completeness app_base log_base r with
      | .error f => .error f
      | .ok _ =>
        if app_base.last_committed_decree a + 1 = mu.data.header.decree then
          .ok ((app_base.write_internal a mu).1, true, (app_base.write_internal a mu).2,
            [effect.write_internal mu])
        else .error .assertion_failed := by
  unfold execute_mutation_switch
  rcases hrole with hst | ⟨hst, hk⟩
  · simp only [hst]
    cases check_state_completeness app_base log_base r with
    | error f => rfl
    | ok u =>
      by_cases hd : app_base.last_committed_decree a + 1 = mu.data.header.decree <;>
        simp [hd, dassert, bind, Except.bind, pure, Except.pure]
  · simp only [hst, hk, if_true]
    cases check_state_completeness app_base log_base r with
    | error f => rfl
    | ok u =>
      by_cases hd : app_base.last_committed_decree a + 1 = mu.data.header.decree <;>
        simp [hd, dassert, bind, Except.bind, pure, Except.pure]

/-- The tail of `execute_mutation` after a write: the calls made, the resets among
them (none), and the commit log it leaves. -/
theorem finish_after_write (log_base : mutation_log L) (r : replica A L) (mu : mutation)
    (e : error_code) (a1 : A) :
    ∃ tr, (execute_mutation_finish log_base r mu (e, true, a1, [effect.write_internal mu])).2 =
        effect.write_internal mu :: tr ∧
      resets (effect.write_internal mu :: tr) = [] ∧ written tr = [] ∧
      ((execute_mutation_finish log_base r mu
          (e, true, a1, [effect.write_internal mu])).1.commit_log = r.commit_log ∨
        ∃ l, r.commit_log = some l ∧
          (execute_mutation_finish log_base r mu
            (e, true, a1, [effect.write_internal mu])).1.commit_log =
              some (log_base.append l mu)) := by
  unfold execute_mutation_finish
  by_cases he : e = .ERR_OK
  · cases hl : r.commit_log with
    | none => exact ⟨[], by simp [he, hl], rfl, rfl, Or.inl (by simp [he, hl])⟩
    | some l =>
      exact ⟨[effect.append mu], by simp [he, hl], rfl, rfl,
        Or.inr ⟨l, rfl, by simp [he, hl]⟩⟩
  · exact ⟨[effect.handle_local_failure e], by simp [he], rfl, rfl,
      Or.inl (by simp [he, handle_local_failure])⟩

end checked

/-- C5, as stated, fails on the code: a primary whose commit log ends at decree 5
while the app has committed decree 10 applies decree 11 and appends it; the commit
log is not reset (its lower bound stays 0, not the durable decree 3). -/
theorem C5_completeness_check_before_apply_counterexample :
    window_log.max_decree { min := 0, max := 5, records := [] } { app_id := 1, pidx := 0 } <
      counting_app.last_committed_decree { committed := 10, durable := 3, healthy := true } ∧
    execute_mutation counting_app window_log
        (replica_at .PS_PRIMARY 10 3 (some { min := 0, max := 5, records := [] }))
        (mutation_at 11) =
      .ok ({ replica_at .PS_PRIMARY 10 3
               (some { min := 0, max := 11, records := [mutation_at 11] }) with
             app := some { committed := 11, durable := 3, healthy := true } },
           [effect.write_internal (mutation_at 11), effect.append (mutation_at 11)]) ∧
    resets [effect.write_internal (mutation_at 11), effect.append (mutation_at 11)] = [] :=
  ⟨by decide, rfl, rfl⟩

/-- C5, amended: in role `Primary`, and in role `Secondary` with no checkpoint in
progress, `execute_mutation` runs `check_state_completeness` before applying the
mutation: a failed check ends the call with the same fault. The check only asserts;
it reports no incomplete data and makes no repair: a call that completes has made no
`reset_as_commit_log` call, has left the commit log as it was up to the append of
this mutation, and has written the mutation, whose decree is
`app.last_committed_decree() + 1`, to the app. When the check passes and the decree
is that one, the call does complete. -/
theorem C5_completeness_check_before_apply {A L : Type} (app_base : replication_app_base A)
    (log_base : mutation_log L) (r : replica A L) (mu : mutation) (a : A)
    (ha : r.app = some a)
    (hrole : r.status = .PS_PRIMARY ∨
      (r.status = .PS_SECONDARY ∧ r.secondary_states.checkpoint_task = none)) :
    (∀ f, check_state_completeness app_base log_base r = .error f →
      execute_mutation app_base log_base r mu = .error f) ∧
    (∀ r1 tr, execute_mutation app_base log_base r mu = .ok (r1, tr) →
      check_state_completeness app_base log_base r = .ok () ∧
      resets tr = [] ∧ written tr = [mu] ∧
      mu.data.header.decree = app_base.last_committed_decree a + 1 ∧
      (r1.commit_log = r.commit_log ∨
        ∃ l, r.commit_log = some l ∧ r1.commit_log = some (log_base.append l mu))) ∧
    (check_state_completeness app_base log_base r = .ok () →
      mu.data.header.decree = app_base.last_committed_decree a + 1 →
      ∃ r1 tr, execute_mutation app_base log_base r mu =
        .ok (r1, effect.write_internal mu :: tr)) := by
  rw [execute_mutation_eq app_base log_base r mu a ha,
    switch_checked app_base log_base r a mu hrole]
  obtain ⟨tr0, htr, hres, _, hlog⟩ := finish_after_write log_base r mu
    (app_base.write_internal a mu).1 (app_base.write_internal a mu).2
  have hwr := finish_written log_base r mu ((app_base.write_internal a mu).1, true,
    (app_base.write_internal a mu).2, [effect.write_internal mu])
  refine ⟨?_, ?_, ?_⟩
  · intro f hf
    rw [hf]; rfl
  · intro r1 tr h
    cases hc : check_state_completeness app_base log_base r with
    | error f => rw [hc] at h; cases h
    | ok u =>
      rw [hc] at h
      by_cases hd : app_base.last_committed_decree a + 1 = mu.data.header.decree
      · simp only [hd, if_true, Except.map, Except.ok.injEq] at h
        rw [h] at htr hwr hlog
        simp only at htr hwr hlog
        refine ⟨rfl, ?_, ?_, hd.symm, hlog⟩
        · rw [htr]; exact hres
        · rw [hwr]; rfl
      · simp only [hd, if_false, Except.map] at h
        cases h
  · intro hc hd
    rw [hc]
    simp only [hd, if_true, Except.map]
    exact ⟨_, tr0, by rw [← htr]⟩

/-- C5, amended, at a concrete primary: commit log ending at decree 5, app at
committed decree 10; decree 11 is written and no reset is made. -/
theorem C5_completeness_check_before_apply_witness :
    resets [effect.write_internal (mutation_at 11), effect.append (mutation_at 11)] = [] ∧
    written [effect.write_internal (mutation_at 11), effect.append (mutation_at 11)] =
      [mutation_at 11] :=
  have h := (C5_completeness_check_before_apply counting_app window_log
    (replica_at .PS_PRIMARY 10 3 (some { min := 0, max := 5, records := [] }))
    (mutation_at 11) { committed := 10, durable := 3, healthy := true } rfl
    (Or.inl rfl)).2.1
    { replica_at .PS_PRIMARY 10 3
        (some { min := 0, max := 11, records := [mutation_at 11] }) with
      app := some { committed := 11, durable := 3, healthy := true } }
    [effect.write_internal (mutation_at 11), effect.append (mutation_at 11)] rfl
  ⟨h.2.1, h.2.2.1⟩

/-! ## C6, C7: the commit log check and repair -/

section repair

variable {A L : Type}

/-- With the commit log and the app attached, `check_and_fix_commit_log_completeness`
returns, and its result is read off the two comparisons. -/
theorem check_and_fix_eq (app_base : replication_app_base A) (log_base : mutation_log L)
    (r : replica A L) (l : L) (a : A) (hl : r.commit_log = some l) (ha : r.app = some a) :
    check_and_fix_commit_log_completeness app_base log_base r =
      .ok (
        if log_base.min_decree l r.get_gpid ≤ app_base.last_durable_decree a then
          if log_base.max_decree l r.get_gpid ≥ app_base.last_committed_decree a then
            (.ERR_OK, r, [])
          else
            (.ERR_INCOMPLETE_DATA,
              { r with commit_log := some (log_base.reset_as_commit_log l r.get_gpid
                  (app_base.last_durable_decree a)) },
              [effect.reset_as_commit_log r.get_gpid (app_base.last_durable_decree a)])
        else
          if log_base.max_decree (log_base.reset_as_commit_log l r.get_gpid
              (app_base.last_durable_decree a)) r.get_gpid ≥
              app_base.last_committed_decree a then
            (.ERR_INCOMPLETE_DATA,
              { r with commit_log := some (log_base.reset_as_commit_log l r.get_gpid
                  (app_base.last_durable_decree a)) },
              [effect.reset_as_commit_log r.get_gpid (app_base.last_durable_decree a)])
          else
            (.ERR_INCOMPLETE_DATA,
              { r with commit_log := some (log_base.reset_as_commit_log
                  (log_base.reset_as_commit_log l r.get_gpid
                    (app_base.last_durable_decree a)) r.get_gpid
                  (app_base.last_durable_decree a)) },
              [effect.reset_as_commit_log r.get_gpid (app_base.last_durable_decree a),
               effect.reset_as_commit_log r.get_gpid (app_base.last_durable_decree a)])) := by
  obtain ⟨stub, app, timer, opts, tran, pl, cfg, ps, ss, pss, clog⟩ := r
  simp only at hl ha
  subst hl ha
  unfold check_and_fix_commit_log_completeness
  by_cases h1 : log_base.min_decree l cfg.gpid ≤ app_base.last_durable_decree a
  · by_cases h2 : log_base.max_decree l cfg.gpid ≥ app_base.last_committed_decree a <;>
      simp [deref, bind, Except.bind, pure, Except.pure, replica.get_gpid, h1, h2]
  · by_cases h2 : log_base.max_decree (log_base.reset_as_commit_log l cfg.gpid
        (app_base.last_durable_decree a)) cfg.gpid ≥ app_base.last_committed_decree a <;>
      simp [deref, bind, Except.bind, pure, Except.pure, replica.get_gpid, h1, h2]

end repair

/-- C6: with the commit log and the app attached,
`check_and_fix_commit_log_completeness` returns `ERR_OK` if and only if, on entry,
`commit_log.min_decree(gpid) <= app.last_durable_decree()` and
`commit_log.max_decree(gpid) >= app.last_committed_decree()`; otherwise it returns
`ERR_INCOMPLETE_DATA`. When it returns `ERR_OK` no `reset_as_commit_log` call was
made and the replica, its commit log included, is as on entry. -/
theorem C6_check_and_fix_returns_ok_iff_complete {A L : Type}
    (app_base : replication_app_base A) (log_base : mutation_log L) (r : replica A L)
    (l : L) (a : A) (hl : r.commit_log = some l) (ha : r.app = some a) :
    ∃ err r1 tr, check_and_fix_commit_log_completeness app_base log_base r =
        .ok (err, r1, tr) ∧
      (err = .ERR_OK ↔
        (log_base.min_decree l r.get_gpid ≤ app_base.last_durable_decree a ∧
          log_base.max_decree l r.get_gpid ≥ app_base.last_committed_decree a)) ∧
      (err ≠ .ERR_OK → err = .ERR_INCOMPLETE_DATA) ∧
      (err = .ERR_OK → tr = [] ∧ resets tr = [] ∧ r1 = r) := by
  rw [check_and_fix_eq app_base log_base r l a hl ha]
  by_cases h1 : log_base.min_decree l r.get_gpid ≤ app_base.last_durable_decree a
  · by_cases h2 : log_base.max_decree l r.get_gpid ≥ app_base.last_committed_decree a
    · refine ⟨_, _, _, by rw [if_pos h1, if_pos h2], ?_, ?_, ?_⟩
      · exact ⟨fun _ => ⟨h1, h2⟩, fun _ => rfl⟩
      · intro h; exact absurd rfl h
      · intro _; exact ⟨rfl, rfl, rfl⟩
    · refine ⟨_, _, _, by rw [if_pos h1, if_neg h2], ?_, ?_, ?_⟩
      · exact ⟨fun h => (by cases h), fun h => absurd h.2 h2⟩
      · intro _; rfl
      · intro h; cases h
  · by_cases h2 : log_base.max_decree (log_base.reset_as_commit_log l r.get_gpid
        (app_base.last_durable_decree a)) r.get_gpid ≥ app_base.last_committed_decree a
    · refine ⟨_, _, _, by rw [if_neg h1, if_pos h2], ?_, ?_, ?_⟩
      · exact ⟨fun h => (by cases h), fun h => absurd h.1 h1⟩
      · intro _; rfl
      · intro h; cases h
    · refine ⟨_, _, _, by rw [if_neg h1, if_neg h2], ?_, ?_, ?_⟩
      · exact ⟨fun h => (by cases h), fun h => absurd h.1 h1⟩
      · intro _; rfl
      · intro h; cases h

/-- C6, at two concrete logs: a log covering decrees 0 to 10 of an app at committed
decree 10 and durable decree 3 gives `ERR_OK` and stays as it is; a log ending at
decree 5 does not give `ERR_OK`. -/
theorem C6_check_and_fix_returns_ok_iff_complete_witness :
    (∃ err r1 tr, check_and_fix_commit_log_completeness counting_app window_log
        (replica_at .PS_SECONDARY 10 3 (some { min := 0, max := 10, records := [] })) =
        .ok (err, r1, tr) ∧
      (err = .ERR_OK ↔
        (window_log.min_decree { min := 0, max := 10, records := [] }
            (replica_at .PS_SECONDARY 10 3
              (some { min := 0, max := 10, records := [] })).get_gpid ≤
          counting_app.last_durable_decree { committed := 10, durable := 3, healthy := true } ∧
        window_log.max_decree { min := 0, max := 10, records := [] }
            (replica_at .PS_SECONDARY 10 3
              (some { min := 0, max := 10, records := [] })).get_gpid ≥
          counting_app.last_committed_decree
            { committed := 10, durable := 3, healthy := true })) ∧
      (err ≠ .ERR_OK → err = .ERR_INCOMPLETE_DATA) ∧
      (err = .ERR_OK → tr = [] ∧ resets tr = [] ∧
        r1 = replica_at .PS_SECONDARY 10 3 (some { min := 0, max := 10, records := [] }))) ∧
    check_and_fix_commit_log_completeness counting_app window_log
        (replica_at .PS_SECONDARY 10 3 (some { min := 0, max := 10, records := [] })) =
      .ok (.ERR_OK, replica_at .PS_SECONDARY 10 3
        (some { min := 0, max := 10, records := [] }), []) :=
  ⟨C6_check_and_fix_returns_ok_iff_complete counting_app window_log
      (replica_at .PS_SECONDARY 10 3 (some { min := 0, max := 10, records := [] }))
      { min := 0, max := 10, records := [] }
      { committed := 10, durable := 3, healthy := true } rfl rfl,
   rfl⟩

/-- C7: with the commit log and the app attached, every call
`check_and_fix_commit_log_completeness` makes is `reset_as_commit_log(gpid,
app.last_durable_decree())`, for either violated invariant; and when
`commit_log.min_decree(gpid) > app.last_durable_decree()` on entry it returns
`ERR_INCOMPLETE_DATA`, its first call is that reset, the app is untouched, and, for a
commit log whose reset sets its lower bound to the base decree passed in,
`commit_log.min_decree(gpid) <= app.last_durable_decree()` holds afterwards. -/
theorem C7_check_and_fix_resets_to_durable {A L : Type}
    (app_base : replication_app_base A) (log_base : mutation_log L) (r : replica A L)
    (l : L) (a : A) (hl : r.commit_log = some l) (ha : r.app = some a) :
    ∃ err r1 tr, check_and_fix_commit_log_completeness app_base log_base r =
        .ok (err, r1, tr) ∧
      (∀ e ∈ tr, e = effect.reset_as_commit_log r.get_gpid (app_base.last_durable_decree a)) ∧
      (log_base.min_decree l r.get_gpid > app_base.last_durable_decree a →
        err = .ERR_INCOMPLETE_DATA ∧
        tr.head? =
          some (effect.reset_as_commit_log r.get_gpid (app_base.last_durable_decree a)) ∧
        r1.app = some a ∧
        ((∀ l0 g b, log_base.min_decree (log_base.reset_as_commit_log l0 g b) g = b) →
          ∃ l1, r1.commit_log = some l1 ∧
            log_base.min_decree l1 r.get_gpid ≤ app_base.last_durable_decree a)) := by
  rw [check_and_fix_eq app_base log_base r l a hl ha]
  by_cases h1 : log_base.min_decree l r.get_gpid ≤ app_base.last_durable_decree a
  · by_cases h2 : log_base.max_decree l r.get_gpid ≥ app_base.last_committed_decree a
    · refine ⟨_, _, _, by rw [if_pos h1, if_pos h2], by simp, ?_⟩
      intro hgt; exact absurd h1 (not_le.mpr hgt)
    · refine ⟨_, _, _, by rw [if_pos h1, if_neg h2], by simp, ?_⟩
      intro hgt; exact absurd h1 (not_le.mpr hgt)
  · by_cases h2 : log_base.max_decree (log_base.reset_as_commit_log l r.get_gpid
        (app_base.last_durable_decree a)) r.get_gpid ≥ app_base.last_committed_decree a
    · refine ⟨_, _, _, by rw [if_neg h1, if_pos h2], by simp, ?_⟩
      intro _
      refine ⟨rfl, rfl, ha, ?_⟩
      intro hreset
      exact ⟨_, rfl, le_of_eq (hreset _ _ _)⟩
    · refine ⟨_, _, _, by rw [if_neg h1, if_neg h2], by simp, ?_⟩
      intro _
      refine ⟨rfl, rfl, ha, ?_⟩
      intro hreset
      exact ⟨_, rfl, le_of_eq (hreset _ _ _)⟩

/-- C7, at the decrees of the claim: `min_decree = 5`, `last_durable_decree = 3`; the
check reports incomplete data and afterwards `min_decree <= 3`. -/
theorem C7_check_and_fix_resets_to_durable_witness :
    ∃ err r1 tr, check_and_fix_commit_log_completeness counting_app window_log
        (replica_at .PS_SECONDARY 4 3 (some { min := 5, max := 9, records := [] })) =
        .ok (err, r1, tr) ∧
      err = .ERR_INCOMPLETE_DATA ∧
      tr.head? = some (effect.reset_as_commit_log { app_id := 1, pidx := 0 } 3) ∧
      ∃ l1, r1.commit_log = some l1 ∧
        window_log.min_decree l1 { app_id := 1, pidx := 0 } ≤ 3 := by
  obtain ⟨err, r1, tr, h, _, hmin⟩ := C7_check_and_fix_resets_to_durable counting_app
    window_log (replica_at .PS_SECONDARY 4 3 (some { min := 5, max := 9, records := [] }))
    { min := 5, max := 9, records := [] } { committed := 4, durable := 3, healthy := true }
    rfl rfl
  obtain ⟨he, hh, _, hfix⟩ := hmin (by decide)
  exact ⟨err, r1, tr, h, he, hh, hfix (fun _ _ _ => rfl)⟩

/-! ## C8: a secondary during its checkpoint -/

section checkpoint

variable {A L : Type}

/-- One call on a secondary whose checkpoint is in progress: the mutation is appended
to the commit log, and nothing else happens. -/
theorem execute_mutation_checkpoint (app_base : replication_app_base A)
    (log_base : mutation_log L) (r : replica A L) (mu : mutation) (a : A) (l : L)
    (ha : r.app = some a) (hl : r.commit_log = some l) (hst : r.status = .PS_SECONDARY)
    (hk : r.secondary_states.checkpoint_task ≠ none) :
    execute_mutation app_base log_base r mu =
      .ok ({ r with commit_log := some (log_base.append l mu) }, [effect.append mu]) := by
  rw [execute_mutation_eq app_base log_base r mu a ha]
  obtain ⟨stub, app, timer, opts, tran, pl, cfg, ps, ss, pss, clog⟩ := r
  simp only at ha hl hk
  simp only [replica.status] at hst
  subst ha hl
  unfold execute_mutation_switch
  simp [replica.status, hst, hk, dassert, bind, Except.bind, pure, Except.pure, Except.map,
    execute_mutation_finish]

/-- A run of calls on a secondary whose checkpoint is in progress. -/
theorem execute_mutations_checkpoint (app_base : replication_app_base A)
    (log_base : mutation_log L) (mus : List mutation) :
    ∀ (r : replica A L) (a : A) (l : L), r.app = some a → r.commit_log = some l →
      r.status = .PS_SECONDARY → r.secondary_states.checkpoint_task ≠ none →
      execute_mutations app_base log_base r mus =
        .ok ({ r with commit_log := some (mus.foldl log_base.append l) },
          mus.map effect.append) := by
  induction mus with
  | nil =>
    intro r a l _ hl _ _
    obtain ⟨stub, app, timer, opts, tran, pl, cfg, ps, ss, pss, clog⟩ := r
    simp only at hl
    subst hl
    rfl
  | cons mu mus ih =>
    intro r a l ha hl hst hk
    have h2 := ih { r with commit_log := some (log_base.append l mu) } a
      (log_base.append l mu) ha rfl hst hk
    simp only [execute_mutations, bind, Except.bind, pure, Except.pure,
      execute_mutation_checkpoint app_base log_base r mu a l ha hl hst hk, h2]
    rfl

theorem written_map_append (mus : List mutation) : written (mus.map effect.append) = [] := by
  induction mus with
  | nil => rfl
  | cons mu mus ih => simpa [written] using ih

theorem appended_map_append (mus : List mutation) :
    appended (mus.map effect.append) = mus := by
  induction mus with
  | nil => rfl
  | cons mu mus ih => simpa [appended] using ih

end checkpoint

/-- C8: in role `Secondary` with a checkpoint in progress and a commit log attached,
`execute_mutation` makes exactly one call, the append of the mutation to the commit
log; `write_internal` is not called and the app is as before. Hence a run of
mutations arriving during the checkpoint is appended to the commit log in arrival
order, and none of them is applied to the app. -/
theorem C8_secondary_checkpoint_appends_only {A L : Type}
    (app_base : replication_app_base A) (log_base : mutation_log L) (r : replica A L)
    (a : A) (l : L) (ha : r.app = some a) (hl : r.commit_log = some l)
    (hst : r.status = .PS_SECONDARY) (hk : r.secondary_states.checkpoint_task ≠ none) :
    (∀ mu, execute_mutation app_base log_base r mu =
      .ok ({ r with commit_log := some (log_base.append l mu) }, [effect.append mu])) ∧
    (∀ mus, ∃ r1 tr, execute_mutations app_base log_base r mus = .ok (r1, tr) ∧
      written tr = [] ∧ appended tr = mus ∧ tr = mus.map effect.append ∧
      r1.app = some a ∧ r1.commit_log = some (mus.foldl log_base.append l)) := by
  refine ⟨fun mu => execute_mutation_checkpoint app_base log_base r mu a l ha hl hst hk, ?_⟩
  intro mus
  exact ⟨_, _, execute_mutations_checkpoint app_base log_base mus r a l ha hl hst hk,
    written_map_append mus, appended_map_append mus, rfl, ha, rfl⟩

/-- C8, at a concrete secondary in checkpoint, committed decree 10: decrees 11 and 12
arrive; both are appended, in this order, and the app stays at decree 10. -/
theorem C8_secondary_checkpoint_appends_only_witness :
    execute_mutations counting_app window_log
        { replica_at .PS_SECONDARY 10 3 (some { min := 0, max := 10, records := [] }) with
          secondary_states := { checkpoint_task := some 1 } }
        [mutation_at 11, mutation_at 12] =
      .ok ({ replica_at .PS_SECONDARY 10 3
               (some { min := 0, max := 12, records := [mutation_at 11, mutation_at 12] }) with
             secondary_states := { checkpoint_task := some 1 } },
           [effect.append (mutation_at 11), effect.append (mutation_at 12)]) ∧
    ∃ r1 tr, execute_mutations counting_app window_log
        { replica_at .PS_SECONDARY 10 3 (some { min := 0, max := 10, records := [] }) with
          secondary_states := { checkpoint_task := some 1 } }
        [mutation_at 11, mutation_at 12] = .ok (r1, tr) ∧
      written tr = [] ∧ appended tr = [mutation_at 11, mutation_at 12] ∧
      tr = [mutation_at 11, mutation_at 12].map effect.append ∧
      r1.app = some { committed := 10, durable := 3, healthy := true } ∧
      r1.commit_log = some ([mutation_at 11, mutation_at 12].foldl window_log.append
        { min := 0, max := 10, records := [] }) :=
  ⟨rfl,
   (C8_secondary_checkpoint_appends_only counting_app window_log
      { replica_at .PS_SECONDARY 10 3 (some { min := 0, max := 10, records := [] }) with
        secondary_states := { checkpoint_task := some 1 } }
      { committed := 10, durable := 3, healthy := true }
      { min := 0, max := 10, records := [] } rfl rfl rfl (by decide)).2
      [mutation_at 11, mutation_at 12]⟩

/-! ## C9: a potential secondary -/

/-- C9: in role `PotentialSecondary`, `execute_mutation` applies the mutation to the
app (calls `write_internal` with it, first and once) when its decree is
`app.last_committed_decree() + 1` and the learning status has reached
`LearningWithPrepare`. In every other case it calls neither `write_internal` nor the
commit log append: for a decree at or below the committed one it returns without any
call and with the replica unchanged, and for the remaining decrees and learning
states it stops on an assertion before any call. -/
theorem C9_potential_secondary_apply {A L : Type} (app_base : replication_app_base A)
    (log_base : mutation_log L) (r : replica A L) (mu : mutation) (a : A)
    (ha : r.app = some a) (hst : r.status = .PS_POTENTIAL_SECONDARY) :
    ((mu.data.header.decree = app_base.last_committed_decree a + 1 ∧
        r.potential_secondary_states.learning_status.toNat ≥
          learner_status.LearningWithPrepare.toNat) →
      ∃ r1 tr, execute_mutation app_base log_base r mu =
          .ok (r1, effect.write_internal mu :: tr) ∧
        written tr = [] ∧ r1.app = some (app_base.write_internal a mu).2) ∧
    (¬ (mu.data.header.decree = app_base.last_committed_decree a + 1 ∧
        r.potential_secondary_states.learning_status.toNat ≥
          learner_status.LearningWithPrepare.toNat) →
      (mu.data.header.decree ≤ app_base.last_committed_decree a →
        execute_mutation app_base log_base r mu = .ok (r, [])) ∧
      (¬ mu.data.header.decree ≤ app_base.last_committed_decree a →
        execute_mutation app_base log_base r mu = .error .assertion_failed) ∧
      (∀ r1 tr, execute_mutation app_base log_base r mu = .ok (r1, tr) →
        written tr = [] ∧ appended tr = [])) := by
  have hnoop : mu.data.header.decree ≤ app_base.last_committed_decree a →
      execute_mutation app_base log_base r mu = .ok (r, []) := by
    intro hle
    have hne : ¬ mu.data.header.decree = app_base.last_committed_decree a + 1 := by
      intro h; linarith
    rw [execute_mutation_eq app_base log_base r mu a ha]
    obtain ⟨stub, app, timer, opts, tran, pl, cfg, ps, ss, pss, clog⟩ := r
    simp only at ha
    simp only [replica.status] at hst
    subst ha
    unfold execute_mutation_switch
    cases clog <;>
      simp [replica.status, hst, hne, hle, dassert, bind, Except.bind, pure, Except.pure,
        Except.map, execute_mutation_finish]
  have hstop : ¬ (mu.data.header.decree = app_base.last_committed_decree a + 1 ∧
        r.potential_secondary_states.learning_status.toNat ≥
          learner_status.LearningWithPrepare.toNat) →
      ¬ mu.data.header.decree ≤ app_base.last_committed_decree a →
      execute_mutation app_base log_base r mu = .error .assertion_failed := by
    intro hc hle
    rw [execute_mutation_eq app_base log_base r mu a ha]
    unfold execute_mutation_switch
    simp only [hst]
    by_cases hd : mu.data.header.decree = app_base.last_committed_decree a + 1
    · have hls : ¬ (r.potential_secondary_states.learning_status.toNat ≥
          learner_status.LearningWithPrepare.toNat) := fun h => hc ⟨hd, h⟩
      simp [hd, hls, dassert, bind, Except.bind, Except.map]
    · simp [hd, hle, dassert, bind, Except.bind, Except.map]
  refine ⟨?_, fun hc => ⟨hnoop, hstop hc, ?_⟩⟩
  · intro hc
    obtain ⟨tr0, htr, _, hw, _⟩ := finish_after_write log_base r mu
      (app_base.write_internal a mu).1 (app_base.write_internal a mu).2
    have happ := finish_app log_base r mu ((app_base.write_internal a mu).1, true,
      (app_base.write_internal a mu).2, [effect.write_internal mu])
    rw [execute_mutation_eq app_base log_base r mu a ha]
    unfold execute_mutation_switch
    simp only [hst, hc.1, hc.2, if_true, dassert, bind, Except.bind, pure, Except.pure,
      Except.map]
    exact ⟨_, tr0, by rw [← htr], hw, happ⟩
  · intro r1 tr h
    by_cases hle : mu.data.header.decree ≤ app_base.last_committed_decree a
    · rw [hnoop hle] at h
      simp only [Except.ok.injEq, Prod.mk.injEq] at h
      rw [← h.2]
      exact ⟨rfl, rfl⟩
    · rw [hstop hc hle] at h
      cases h

/-- C9, at a concrete potential secondary at committed decree 10 that has reached
`LearningWithPrepare`: decree 11 is written to the app, decree 9 is a no-op. -/
theorem C9_potential_secondary_apply_witness :
    (∃ r1 tr, execute_mutation counting_app window_log
        (replica_at .PS_POTENTIAL_SECONDARY 10 3 none) (mutation_at 11) =
          .ok (r1, effect.write_internal (mutation_at 11) :: tr) ∧
        written tr = [] ∧
        r1.app = some (counting_app.write_internal
          { committed := 10, durable := 3, healthy := true } (mutation_at 11)).2) ∧
    execute_mutation counting_app window_log
        (replica_at .PS_POTENTIAL_SECONDARY 10 3 none) (mutation_at 9) =
      .ok (replica_at .PS_POTENTIAL_SECONDARY 10 3 none, []) :=
  ⟨(C9_potential_secondary_apply counting_app window_log
      (replica_at .PS_POTENTIAL_SECONDARY 10 3 none) (mutation_at 11)
      { committed := 10, durable := 3, healthy := true } rfl rfl).1 ⟨rfl, by decide⟩,
   ((C9_potential_secondary_apply counting_app window_log
      (replica_at .PS_POTENTIAL_SECONDARY 10 3 none) (mutation_at 9)
      { committed := 10, durable := 3, healthy := true } rfl rfl).2 (by decide)).1
      (by decide)⟩

/-! ## C10: local failures -/

/-- C10: when a completed `execute_mutation` has called `write_internal` and it
returned an error, the calls made are the write and `handle_local_failure` with that
error, and the mutation is not appended to the commit log; when the write succeeded,
`handle_local_failure` is not called, and the mutation is appended exactly when a
commit log is attached. The completion callback of the append calls
`handle_local_failure` with the error it is given when that is not `ERR_OK`, and does
nothing for `ERR_OK`. -/
theorem C10_local_failure_on_write_or_append_error {A L : Type}
    (app_base : replication_app_base A) (log_base : mutation_log L)
    (r r1 : replica A L) (mu : mutation) (tr : List effect) (a : A) (ha : r.app = some a)
    (h : execute_mutation app_base log_base r mu = .ok (r1, tr))
    (hw : written tr ≠ []) :
    ((app_base.write_internal a mu).1 ≠ .ERR_OK →
      tr = [effect.write_internal mu,
        effect.handle_local_failure (app_base.write_internal a mu).1] ∧
      appended tr = [] ∧ r1.commit_log = r.commit_log) ∧
    ((app_base.write_internal a mu).1 = .ERR_OK →
      local_failures tr = [] ∧
      (r.commit_log = none → tr = [effect.write_internal mu]) ∧
      (∀ l, r.commit_log = some l →
        tr = [effect.write_internal mu, effect.append mu] ∧
        r1.commit_log = some (log_base.append l mu))) ∧
    (∀ (r2 : replica A L) (err : error_code) (size : Nat), err ≠ .ERR_OK →
      append_callback r2 err size =
        (handle_local_failure r2 err, [effect.handle_local_failure err])) ∧
    (∀ (r2 : replica A L) (size : Nat), append_callback r2 .ERR_OK size = (r2, [])) := by
  obtain ⟨a1, step, ha1, hs, hf⟩ := execute_mutation_ok app_base log_base r r1 mu tr h
  rw [ha] at ha1
  cases ha1
  have hwr := finish_written log_base r mu step
  rw [hf] at hwr
  rcases switch_ok app_base log_base r a mu step hs with ⟨h1, _, _⟩ | ⟨h1, h2, _, h4, h5⟩
  · rw [hwr, h1] at hw
    exact absurd rfl hw
  · obtain ⟨e, w, a2, t⟩ := step
    simp only at h1 h2 h4 h5
    subst h1 h2 h4 h5
    unfold execute_mutation_finish at hf
    refine ⟨?_, ?_, ?_, ?_⟩
    · intro hne
      simp only [hne, ne_eq, not_false_eq_true, if_true, Prod.mk.injEq] at hf
      rw [← hf.2, ← hf.1]
      exact ⟨rfl, rfl, rfl⟩
    · intro heq
      simp only [heq, ne_eq, not_true_eq_false, if_false, if_true] at hf
      cases hl : r.commit_log with
      | none =>
        simp only [hl, Prod.mk.injEq] at hf
        rw [← hf.2]
        exact ⟨rfl, fun _ => rfl, fun l hl2 => (by cases hl2)⟩
      | some l0 =>
        simp only [hl, Prod.mk.injEq] at hf
        rw [← hf.2, ← hf.1]
        refine ⟨rfl, fun hn => (by cases hn), fun l hl2 => ?_⟩
        cases hl2
        exact ⟨rfl, rfl⟩
    · intro r2 err size hne
      simp [append_callback, hne]
    · intro r2 size
      simp [append_callback]

/-- C10, at a concrete primary whose app store is unhealthy: the write of decree 11
fails with `ERR_OTHER 1`, `handle_local_failure` is called with it, and nothing is
appended. -/
theorem C10_local_failure_on_write_or_append_error_witness :
    execute_mutation counting_app window_log
        ({ replica_at .PS_PRIMARY 10 3 (some { min := 0, max := 10, records := [] }) with
           app := some { committed := 10, durable := 3, healthy := false } } :
          replica counting_app_state window_log_state)
        (mutation_at 11) =
      .ok (({ replica_at .PS_ERROR 10 3 (some { min := 0, max := 10, records := [] }) with
              app := some { committed := 10, durable := 3, healthy := false } } :
             replica counting_app_state window_log_state),
           [effect.write_internal (mutation_at 11),
            effect.handle_local_failure (.ERR_OTHER 1)]) ∧
    [effect.write_internal (mutation_at 11), effect.handle_local_failure (.ERR_OTHER 1)] =
      [effect.write_internal (mutation_at 11),
        effect.handle_local_failure (counting_app.write_internal
          { committed := 10, durable := 3, healthy := false } (mutation_at 11)).1] ∧
    appended [effect.write_internal (mutation_at 11),
      effect.handle_local_failure (.ERR_OTHER 1)] = [] :=
  have h := (C10_local_failure_on_write_or_append_error counting_app window_log
    ({ replica_at .PS_PRIMARY 10 3 (some { min := 0, max := 10, records := [] }) with
       app := some { committed := 10, durable := 3, healthy := false } } :
      replica counting_app_state window_log_state)
    ({ replica_at .PS_ERROR 10 3 (some { min := 0, max := 10, records := [] }) with
       app := some { committed := 10, durable := 3, healthy := false } } :
      replica counting_app_state window_log_state)
    (mutation_at 11)
    [effect.write_internal (mutation_at 11), effect.handle_local_failure (.ERR_OTHER 1)]
    { committed := 10, durable := 3, healthy := false } rfl rfl (by decide)).1 (by decide)
  ⟨rfl, h.1, h.2.1⟩

/-! ## C11: role `Error` -/

/-- C11: in role `Error`, for every mutation, every app state and every commit log
state, `execute_mutation` is a no-op: it returns with no call made (no
`write_internal`, no append to the commit log, no `handle_local_failure`) and the
replica, its status and its app included, is as before. -/
theorem C11_error_role_is_noop {A L : Type} (app_base : replication_app_base A)
    (log_base : mutation_log L) (r : replica A L) (mu : mutation) (a : A)
    (ha : r.app = some a) (hst : r.status = .PS_ERROR) :
    execute_mutation app_base log_base r mu = .ok (r, []) ∧
    ∀ r1 tr, execute_mutation app_base log_base r mu = .ok (r1, tr) →
      written tr = [] ∧ appended tr = [] ∧ local_failures tr = [] ∧
      r1.status = r.status ∧ r1.app = some a ∧ r1.commit_log = r.commit_log := by
  have h : execute_mutation app_base log_base r mu = .ok (r, []) := by
    rw [execute_mutation_eq app_base log_base r mu a ha]
    obtain ⟨stub, app, timer, opts, tran, pl, cfg, ps, ss, pss, clog⟩ := r
    simp only at ha
    simp only [replica.status] at hst
    subst ha
    unfold execute_mutation_switch
    cases clog <;>
      simp [replica.status, hst, pure, Except.pure, Except.map, execute_mutation_finish]
  refine ⟨h, ?_⟩
  intro r1 tr h1
  rw [h] at h1
  simp only [Except.ok.injEq, Prod.mk.injEq] at h1
  rw [← h1.1, ← h1.2]
  exact ⟨rfl, rfl, rfl, rfl, ha, rfl⟩

/-- C11, at a concrete replica in role `Error` with a commit log: decree 11 at
committed decree 10 changes nothing. -/
theorem C11_error_role_is_noop_witness :
    execute_mutation counting_app window_log
        (replica_at .PS_ERROR 10 3 (some { min := 0, max := 10, records := [] }))
        (mutation_at 11) =
      .ok (replica_at .PS_ERROR 10 3 (some { min := 0, max := 10, records := [] }), []) :=
  (C11_error_role_is_noop counting_app window_log
    (replica_at .PS_ERROR 10 3 (some { min := 0, max := 10, records := [] }))
    (mutation_at 11) { committed := 10, durable := 3, healthy := true } rfl rfl).1

/-! ## C12: role `Inactive`, decrees at or below the committed one -/

/-- C12: in role `Inactive`, for a mutation whose decree is at most
`app.last_committed_decree()`, `execute_mutation` never calls `write_internal`; it
appends the mutation to the commit log if and only if a commit log is attached and
the decree is `commit_log.max_decree(gpid) + 1`, and that append is then its only
call; for any other decree, or without a commit log, it returns with no call made
and the replica unchanged. -/
theorem C12_inactive_old_decree_log_repair {A L : Type} (app_base : replication_app_base A)
    (log_base : mutation_log L) (r : replica A L) (mu : mutation) (a : A)
    (ha : r.app = some a) (hst : r.status = .PS_INACTIVE)
    (hd : mu.data.header.decree ≤ app_base.last_committed_decree a) :
    (∀ l, r.commit_log = some l →
      mu.data.header.decree = log_base.max_decree l r.get_gpid + 1 →
      execute_mutation app_base log_base r mu =
        .ok ({ r with commit_log := some (log_base.append l mu) }, [effect.append mu])) ∧
    (∀ l, r.commit_log = some l →
      mu.data.header.decree ≠ log_base.max_decree l r.get_gpid + 1 →
      execute_mutation app_base log_base r mu = .ok (r, [])) ∧
    (r.commit_log = none → execute_mutation app_base log_base r mu = .ok (r, [])) ∧
    (∀ r1 tr, execute_mutation app_base log_base r mu = .ok (r1, tr) →
      written tr = [] ∧
      (appended tr ≠ [] ↔
        ∃ l, r.commit_log = some l ∧
          mu.data.header.decree = log_base.max_decree l r.get_gpid + 1)) := by
  have hne : ¬ app_base.last_committed_decree a + 1 = mu.data.header.decree := by
    intro h; linarith
  have hrun : execute_mutation app_base log_base r mu =
      .ok (execute_mutation_finish log_base r mu
        (.ERR_OK,
          (match r.commit_log with
            | some l => decide (mu.data.header.decree = log_base.max_decree l r.get_gpid + 1)
            | none => false),
          a, [])) := by
    rw [execute_mutation_eq app_base log_base r mu a ha]
    unfold execute_mutation_switch
    simp only [hst]
    rw [if_neg hne]
    simp [dassert, hd, bind, Except.bind, pure, Except.pure, Except.map]
  have h1 : ∀ l, r.commit_log = some l →
      mu.data.header.decree = log_base.max_decree l r.get_gpid + 1 →
      execute_mutation app_base log_base r mu =
        .ok ({ r with commit_log := some (log_base.append l mu) }, [effect.append mu]) := by
    intro l hl hm
    rw [hrun]
    obtain ⟨stub, app, timer, opts, tran, pl, cfg, ps, ss, pss, clog⟩ := r
    simp only at ha hl
    subst ha hl
    simp [execute_mutation_finish, hm]
  have h2 : ∀ l, r.commit_log = some l →
      mu.data.header.decree ≠ log_base.max_decree l r.get_gpid + 1 →
      execute_mutation app_base log_base r mu = .ok (r, []) := by
    intro l hl hm
    rw [hrun]
    obtain ⟨stub, app, timer, opts, tran, pl, cfg, ps, ss, pss, clog⟩ := r
    simp only at ha hl
    subst ha hl
    simp [execute_mutation_finish, hm]
  have h3 : r.commit_log = none → execute_mutation app_base log_base r mu = .ok (r, []) := by
    intro hl
    rw [hrun]
    obtain ⟨stub, app, timer, opts, tran, pl, cfg, ps, ss, pss, clog⟩ := r
    simp only at ha hl
    subst ha hl
    simp [execute_mutation_finish]
  refine ⟨h1, h2, h3, ?_⟩
  intro r1 tr h
  cases hl : r.commit_log with
  | none =>
    rw [h3 hl] at h
    simp only [Except.ok.injEq, Prod.mk.injEq] at h
    rw [← h.2]
    refine ⟨rfl, ?_⟩
    constructor
    · intro hx; exact absurd rfl hx
    · rintro ⟨l, hl2, _⟩; cases hl2
  | some l =>
    by_cases hm : mu.data.header.decree = log_base.max_decree l r.get_gpid + 1
    · rw [h1 l hl hm] at h
      simp only [Except.ok.injEq, Prod.mk.injEq] at h
      rw [← h.2]
      refine ⟨rfl, ?_⟩
      constructor
      · intro _; exact ⟨l, rfl, hm⟩
      · intro _; simp [appended]
    · rw [h2 l hl hm] at h
      simp only [Except.ok.injEq, Prod.mk.injEq] at h
      rw [← h.2]
      refine ⟨rfl, ?_⟩
      constructor
      · intro hx; exact absurd rfl hx
      · rintro ⟨l2, hl2, hm2⟩
        cases hl2
        exact absurd hm2 hm

/-- C12, at a concrete inactive replica at committed decree 10 whose commit log ends
at decree 7: decree 8 is appended to the commit log, decree 5 changes nothing. -/
theorem C12_inactive_old_decree_log_repair_witness :
    execute_mutation counting_app window_log
        (replica_at .PS_INACTIVE 10 3 (some { min := 0, max := 7, records := [] }))
        (mutation_at 8) =
      .ok (replica_at .PS_INACTIVE 10 3
        (some { min := 0, max := 8, records := [mutation_at 8] }), [effect.append (mutation_at 8)]) ∧
    execute_mutation counting_app window_log
        (replica_at .PS_INACTIVE 10 3 (some { min := 0, max := 7, records := [] }))
        (mutation_at 5) =
      .ok (replica_at .PS_INACTIVE 10 3 (some { min := 0, max := 7, records := [] }), []) :=
  ⟨(C12_inactive_old_decree_log_repair counting_app window_log
      (replica_at .PS_INACTIVE 10 3 (some { min := 0, max := 7, records := [] }))
      (mutation_at 8) { committed := 10, durable := 3, healthy := true } rfl rfl
      (by decide)).1 { min := 0, max := 7, records := [] } rfl rfl,
   (C12_inactive_old_decree_log_repair counting_app window_log
      (replica_at .PS_INACTIVE 10 3 (some { min := 0, max := 7, records := [] }))
      (mutation_at 5) { committed := 10, durable := 3, healthy := true } rfl rfl
      (by decide)).2.1 { min := 0, max := 7, records := [] } rfl (by decide)⟩

/-! ## C14: the group configuration probe -/

/-- C14: `group_configuration(config)` returns `true` if and only if the status is
`Primary`, and then `config` is the membership of the primary,
`_primary_states.membership`; for every other status it returns `false` and `config`
is as the caller passed it. The function only reads the replica. -/
theorem C14_group_configuration_primary_only {A L : Type} (r : replica A L)
    (config : partition_configuration) :
    ((group_configuration r config).1 = true ↔ r.status = .PS_PRIMARY) ∧
    (r.status = .PS_PRIMARY →
      group_configuration r config = (true, r.primary_states.membership)) ∧
    (r.status ≠ .PS_PRIMARY → group_configuration r config = (false, config)) := by
  unfold group_configuration
  by_cases h : r.status = .PS_PRIMARY
  · simp [h]
  · have h2 : partition_status.PS_PRIMARY ≠ r.status := fun e => h e.symm
    simp [h, h2]

/-- C14, at a concrete primary and a concrete secondary, for a caller whose `config`
is the empty membership of partition `9.9`. -/
theorem C14_group_configuration_primary_only_witness :
    group_configuration (replica_at .PS_PRIMARY 10 3 none)
        { gpid := { app_id := 9, pidx := 9 }, ballot := 0, primary := 0, secondaries := [] } =
      (true, { gpid := { app_id := 1, pidx := 0 }, ballot := 1, primary := 1,
               secondaries := [2, 3] }) ∧
    group_configuration (replica_at .PS_SECONDARY 10 3 none)
        { gpid := { app_id := 9, pidx := 9 }, ballot := 0, primary := 0, secondaries := [] } =
      (false, { gpid := { app_id := 9, pidx := 9 }, ballot := 0, primary := 0,
                secondaries := [] }) :=
  ⟨(C14_group_configuration_primary_only (replica_at .PS_PRIMARY 10 3 none)
      { gpid := { app_id := 9, pidx := 9 }, ballot := 0, primary := 0, secondaries := [] }).2.1
      rfl,
   (C14_group_configuration_primary_only (replica_at .PS_SECONDARY 10 3 none)
      { gpid := { app_id := 9, pidx := 9 }, ballot := 0, primary := 0, secondaries := [] }).2.2
      (by decide)⟩

/-! ## C15, C16: shutdown -/

section shutdown

variable {A L : Type}

/-- The calls made by `close`, read off the replica on entry. -/
theorem close_trace (r : replica A L) :
    (close r).2 =
      (if r.check_timer.isSome then [effect.cancel_timer true] else []) ++
      (if r.status ≠ .PS_INACTIVE ∧ r.status ≠ .PS_ERROR then
        [effect.update_local_configuration_with_no_ballot_change .PS_INACTIVE] else []) ++
      (if r.commit_log.isSome then [effect.close_commit_log] else []) ++
      (if r.app.isSome then [effect.close_app false] else []) := by
  obtain ⟨stub, app, timer, opts, tran, pl, cfg, ps, ss, pss, clog⟩ := r
  cases timer <;> cases clog <;> cases app <;>
    by_cases h : cfg.status ≠ .PS_INACTIVE ∧ cfg.status ≠ .PS_ERROR <;>
    simp [close, close_timer, close_role, close_cleanup, close_log, close_the_app,
      cleanup_preparing_mutations, update_local_configuration_with_no_ballot_change,
      replica.status, h]

/-- After `close` nothing is attached, and the role is `Inactive` or `Error`. -/
theorem close_detached (r : replica A L) :
    (close r).1.check_timer = none ∧ (close r).1.commit_log = none ∧
    (close r).1.app = none ∧
    ((close r).1.status = .PS_INACTIVE ∨ (close r).1.status = .PS_ERROR) := by
  obtain ⟨stub, app, timer, opts, tran, pl, cfg, ps, ss, pss, clog⟩ := r
  cases timer <;> cases clog <;> cases app <;>
    by_cases h : cfg.status ≠ .PS_INACTIVE ∧ cfg.status ≠ .PS_ERROR <;>
    simp [close, close_timer, close_role, close_cleanup, close_log, close_the_app,
      cleanup_preparing_mutations, update_local_configuration_with_no_ballot_change,
      replica.status, h]
  all_goals
    by_cases h1 : cfg.status = .PS_INACTIVE
    · exact Or.inl h1
    · exact Or.inr (by_contra fun h2 => h ⟨h1, h2⟩)

end shutdown

/-- C15: for every replica state, after `close()` the check timer, the commit log and
the app are all detached, and the calls made during `close()` are, in this order:
the synchronous cancel of the timer if a timer was attached, the forced role
`Inactive` if the role was neither `Inactive` nor `Error`, the close of the commit
log if one was attached, the close of the app with `clear_state = false` if one was
attached. So each resource attached on entry is released exactly once, and none that
was absent is touched. -/
theorem C15_close_releases_every_resource_once {A L : Type} (r : replica A L) :
    ((close r).1.check_timer = none ∧ (close r).1.commit_log = none ∧
      (close r).1.app = none) ∧
    (close r).2 =
      (if r.check_timer.isSome then [effect.cancel_timer true] else []) ++
      (if r.status ≠ .PS_INACTIVE ∧ r.status ≠ .PS_ERROR then
        [effect.update_local_configuration_with_no_ballot_change .PS_INACTIVE] else []) ++
      (if r.commit_log.isSome then [effect.close_commit_log] else []) ++
      (if r.app.isSome then [effect.close_app false] else []) ∧
    (close r).2.count (effect.cancel_timer true) = (if r.check_timer.isSome then 1 else 0) ∧
    (close r).2.count effect.close_commit_log = (if r.commit_log.isSome then 1 else 0) ∧
    (close r).2.count (effect.close_app false) = (if r.app.isSome then 1 else 0) ∧
    effect.cancel_timer false ∉ (close r).2 ∧ effect.close_app true ∉ (close r).2 := by
  obtain ⟨h1, h2, h3, _⟩ := close_detached r
  refine ⟨⟨h1, h2, h3⟩, close_trace r, ?_⟩
  rw [close_trace r]
  generalize r.check_timer.isSome = bt
  generalize r.commit_log.isSome = bl
  generalize r.app.isSome = ba
  by_cases h : r.status ≠ .PS_INACTIVE ∧ r.status ≠ .PS_ERROR
  · rw [if_pos h]
    cases bt <;> cases bl <;> cases ba <;> decide
  · rw [if_neg h]
    cases bt <;> cases bl <;> cases ba <;> decide

/-- C15, at a concrete primary with a timer, a commit log and an app attached: the
four calls of `close()`, and nothing attached afterwards. -/
theorem C15_close_releases_every_resource_once_witness :
    (close ({ replica_at .PS_PRIMARY 10 3 (some { min := 0, max := 10, records := [] }) with
              check_timer := some 1 } :
            replica counting_app_state window_log_state)).2 =
      [effect.cancel_timer true,
       effect.update_local_configuration_with_no_ballot_change .PS_INACTIVE,
       effect.close_commit_log, effect.close_app false] ∧
    (close ({ replica_at .PS_PRIMARY 10 3 (some { min := 0, max := 10, records := [] }) with
              check_timer := some 1 } :
            replica counting_app_state window_log_state)).1.app = none :=
  ⟨(C15_close_releases_every_resource_once
      ({ replica_at .PS_PRIMARY 10 3 (some { min := 0, max := 10, records := [] }) with
         check_timer := some 1 } :
        replica counting_app_state window_log_state)).2.1,
   (C15_close_releases_every_resource_once
      ({ replica_at .PS_PRIMARY 10 3 (some { min := 0, max := 10, records := [] }) with
         check_timer := some 1 } :
        replica counting_app_state window_log_state)).1.2.2⟩

/-- C16: `close()` is idempotent: a second `close()` leaves the replica as the first
one left it and makes no call at all, so no timer cancel, no commit log close, no
app close and no role transition. `close` has no assertion and dereferences only
pointers it has tested, so neither call can fault. -/
theorem C16_close_is_idempotent {A L : Type} (r : replica A L) :
    close (close r).1 = ((close r).1, []) := by
  obtain ⟨stub, app, timer, opts, tran, pl, cfg, ps, ss, pss, clog⟩ := r
  cases timer <;> cases clog <;> cases app <;>
    by_cases h : cfg.status ≠ .PS_INACTIVE ∧ cfg.status ≠ .PS_ERROR <;>
    simp [close, close_timer, close_role, close_cleanup, close_log, close_the_app,
      cleanup_preparing_mutations, update_local_configuration_with_no_ballot_change,
      primary_context.cleanup, secondary_context.cleanup,
      potential_secondary_context.cleanup, replica.status, h, List.filter_filter]

/-! ## C17: a primary applying decrees 1 to n -/

section endtoend

variable {A L : Type}

end endtoend

section endtoend2

variable {A L : Type}

end endtoend2

/-- C18, on the code: the last test of `check_state_completeness` is
`_commit_log == nullptr`, so the commit log is dereferenced exactly when it is
absent. A primary without commit log and without shared log, at committed decree 10
and durable decree 3, faults on that null pointer, in the check and so in
`execute_mutation` for decree 11, where the claim has the check complete and the
mutation applied; and with a commit log attached whose `min_decree` 5 is above the
durable decree 3 the check returns, where the claim has it assert
`min_decree <= last_durable_decree()`. -/
theorem C18_check_state_completeness_commit_log_test :
    check_state_completeness counting_app window_log (replica_at .PS_PRIMARY 10 3 none) =
      .error .null_dereference ∧
    execute_mutation counting_app window_log (replica_at .PS_PRIMARY 10 3 none)
      (mutation_at 11) = .error .null_dereference ∧
    execute_mutation counting_app window_log (replica_at .PS_SECONDARY 10 3 none)
      (mutation_at 11) = .error .null_dereference ∧
    check_state_completeness counting_app window_log
      (replica_at .PS_PRIMARY 10 3 (some { min := 5, max := 10, records := [] })) = .ok () :=
  ⟨rfl, rfl, rfl, rfl⟩

/-! ## C13, C19: the last prepared decree -/

section prepared

/-- A filter by a stronger test that loses an element is strictly shorter. -/
theorem length_filter_lt {α : Type} (p q : α → Bool) (l : List α)
    (hpq : ∀ x ∈ l, p x = true → q x = true)
    (hx : ∃ x ∈ l, q x = true ∧ p x = false) :
    (l.filter p).length < (l.filter q).length := by
  induction l with
  | nil => obtain ⟨x, hm, _⟩ := hx; cases hm
  | cons y ys ih =>
    have hle : (ys.filter p).length ≤ (ys.filter q).length := by
      rw [← List.countP_eq_length_filter, ← List.countP_eq_length_filter]
      exact List.countP_mono_left (fun x hxm hp => hpq x (List.mem_cons_of_mem _ hxm) hp)
    obtain ⟨x, hm, hq, hp⟩ := hx
    rcases List.mem_cons.mp hm with rfl | hm2
    · simp only [List.filter_cons, hq, hp, if_true, List.length_cons]
      simp only [Bool.false_eq_true, if_false]
      omega
    · have ih2 := ih (fun x hxm hpx => hpq x (List.mem_cons_of_mem _ hxm) hpx)
        ⟨x, hm2, hq, hp⟩
      by_cases hpy : p y = true
      · have hqy := hpq y (List.mem_cons_self _ _) hpy
        simp only [List.filter_cons, hpy, hqy, if_true, List.length_cons]
        omega
      · have hpy2 : p y = false := by simpa using hpy
        by_cases hqy : q y = true
        · simp only [List.filter_cons, hpy2, hqy, if_true, Bool.false_eq_true, if_false,
            List.length_cons]
          omega
        · have hqy2 : q y = false := by simpa using hqy
          simp only [List.filter_cons, hpy2, hqy2, Bool.false_eq_true, if_false]
          exact ih2

/-- An entry found for a decree is held in the list and has that decree. -/
theorem get_mutation_by_decree_some (pl : prepare_list) (d : decree) (mu : mutation)
    (h : pl.get_mutation_by_decree d = some mu) :
    mu ∈ pl.mutations ∧ mu.data.header.decree = d := by
  unfold prepare_list.get_mutation_by_decree at h
  refine ⟨List.mem_of_find?_eq_some h, ?_⟩
  have := List.find?_some h
  simpa using this

/-- Finding the entry at `start + 1` leaves fewer entries above `start + 1` than
there are above `start`. -/
theorem count_above_succ_lt (pl : prepare_list) (start : decree) (mu : mutation)
    (h : pl.get_mutation_by_decree (start + 1) = some mu) :
    pl.count_above (start + 1) < pl.count_above start := by
  obtain ⟨hm, hd⟩ := get_mutation_by_decree_some pl (start + 1) mu h
  unfold prepare_list.count_above
  apply length_filter_lt
  · intro x _ hx
    simp only [decide_eq_true_eq] at hx ⊢
    unfold decree at *
    omega
  · refine ⟨mu, hm, ?_, ?_⟩
    · simp only [decide_eq_true_eq]
      unfold decree at *
      omega
    · simp only [decide_eq_false_iff_not]
      unfold decree at *
      omega

/-- The loop of `last_prepared_decree` reaches its `break` within one lookup more
than there are entries above `start`, and makes no more lookups than that. -/
theorem last_prepared_decree_loop_terminates (pl : prepare_list) (fuel : Nat) :
    ∀ (start : decree) (lb : ballot), pl.count_above start < fuel →
      ∃ r n, last_prepared_decree_loop pl fuel start lb = some (r, n) ∧
        n ≤ pl.count_above start + 1 := by
  induction fuel with
  | zero => intro start lb h; exact absurd h (Nat.not_lt_zero _)
  | succ fuel ih =>
    intro start lb h
    unfold last_prepared_decree_loop
    cases hg : pl.get_mutation_by_decree (start + 1) with
    | none => exact ⟨start, 1, rfl, by omega⟩
    | some mu =>
      by_cases hb : mu.data.header.ballot < lb ∨ mu.is_logged = false
      · simp only [hb, if_true]
        exact ⟨start, 1, rfl, by omega⟩
      · have hlt := count_above_succ_lt pl start mu hg
        obtain ⟨r, n, hr, hn⟩ := ih (start + 1) mu.data.header.ballot (by omega)
        simp only [hb, if_false, hr]
        exact ⟨r, n + 1, rfl, by omega⟩

/-- More fuel does not change the result of the loop. -/
theorem last_prepared_decree_loop_mono (pl : prepare_list) (fuel : Nat) :
    ∀ (start : decree) (lb : ballot) (res : decree × Nat),
      last_prepared_decree_loop pl fuel start lb = some res →
      ∀ fuel2, fuel ≤ fuel2 → last_prepared_decree_loop pl fuel2 start lb = some res := by
  induction fuel with
  | zero => intro start lb res h; simp [last_prepared_decree_loop] at h
  | succ fuel ih =>
    intro start lb res h fuel2 hle
    obtain ⟨k, rfl⟩ : ∃ k, fuel2 = k + 1 := ⟨fuel2 - 1, by omega⟩
    unfold last_prepared_decree_loop at h ⊢
    cases hg : pl.get_mutation_by_decree (start + 1) with
    | none => simpa [hg] using h
    | some mu =>
      simp only [hg] at h ⊢
      by_cases hb : mu.data.header.ballot < lb ∨ mu.is_logged = false
      · simpa [hb] using h
      · simp only [hb, if_false] at h ⊢
        cases hr : last_prepared_decree_loop pl fuel (start + 1) mu.data.header.ballot with
        | none => simp [hr] at h
        | some res2 =>
          rw [ih (start + 1) mu.data.header.ballot res2 hr k (by omega)]
          simpa [hr] using h

end prepared

section prepared2

/-- What the loop of `last_prepared_decree` has established at its `break`, for the
decree `r` it stops at, started at `start` with `lastBallot = lb`. -/
theorem last_prepared_decree_loop_spec (pl : prepare_list) (fuel : Nat) :
    ∀ (start : decree) (lb : ballot) (r : decree) (n : Nat),
      last_prepared_decree_loop pl fuel start lb = some (r, n) →
      start ≤ r ∧
      (∀ d, start < d → d ≤ r →
        ∃ mu, pl.get_mutation_by_decree d = some mu ∧ mu.is_logged = true) ∧
      (∀ d, start < d → d < r → ∀ m1 m2, pl.get_mutation_by_decree d = some m1 →
        pl.get_mutation_by_decree (d + 1) = some m2 →
        m1.data.header.ballot ≤ m2.data.header.ballot) ∧
      (start < r → ∀ m, pl.get_mutation_by_decree (start + 1) = some m →
        lb ≤ m.data.header.ballot) ∧
      (pl.get_mutation_by_decree (r + 1) = none ∨
        ∃ m2, pl.get_mutation_by_decree (r + 1) = some m2 ∧
          (m2.is_logged = false ∨ (r = start ∧ m2.data.header.ballot < lb) ∨
            (start < r ∧ ∃ m, pl.get_mutation_by_decree r = some m ∧
              m2.data.header.ballot < m.data.header.ballot))) ∧
      (n : Int) = r - start + 1 := by
  induction fuel with
  | zero => intro start lb r n h; simp [last_prepared_decree_loop] at h
  | succ fuel ih =>
    intro start lb r n h
    unfold last_prepared_decree_loop at h
    cases hg : pl.get_mutation_by_decree (start + 1) with
    | none =>
      simp only [hg, Option.some.injEq, Prod.mk.injEq] at h
      obtain ⟨rfl, rfl⟩ := h
      refine ⟨le_refl _, ?_, ?_, ?_, Or.inl hg, by simp⟩
      · intro d h1 h2; exact absurd (lt_of_lt_of_le h1 h2) (lt_irrefl _)
      · intro d h1 h2; exact absurd (lt_trans h1 h2) (lt_irrefl _)
      · intro h1; exact absurd h1 (lt_irrefl _)
    | some mu =>
      simp only [hg] at h
      by_cases hb : mu.data.header.ballot < lb ∨ mu.is_logged = false
      · simp only [hb, if_true, Option.some.injEq, Prod.mk.injEq] at h
        obtain ⟨rfl, rfl⟩ := h
        refine ⟨le_refl _, ?_, ?_, ?_, Or.inr ⟨mu, hg, ?_⟩, by simp⟩
        · intro d h1 h2; exact absurd (lt_of_lt_of_le h1 h2) (lt_irrefl _)
        · intro d h1 h2; exact absurd (lt_trans h1 h2) (lt_irrefl _)
        · intro h1; exact absurd h1 (lt_irrefl _)
        · rcases hb with hb | hb
          · exact Or.inr (Or.inl ⟨rfl, hb⟩)
          · exact Or.inl hb
      · simp only [hb, if_false] at h
        have hbal : lb ≤ mu.data.header.ballot := not_lt.mp (fun hx => hb (Or.inl hx))
        have hlog : mu.is_logged = true := by
          cases hx : mu.is_logged with
          | true => rfl
          | false => exact absurd (Or.inr hx) hb
        cases hr : last_prepared_decree_loop pl fuel (start + 1) mu.data.header.ballot with
        | none => simp [hr] at h
        | some res =>
          obtain ⟨r2, n2⟩ := res
          simp only [hr, Option.some.injEq, Prod.mk.injEq] at h
          obtain ⟨rfl, rfl⟩ := h
          obtain ⟨i1, i2, i3, i4, i5, i6⟩ := ih (start + 1) mu.data.header.ballot r2 n2 hr
          have hsr : start < r2 := by unfold decree at *; omega
          refine ⟨le_of_lt hsr, ?_, ?_, ?_, ?_, ?_⟩
          · intro d h1 h2
            by_cases hd : d = start + 1
            · rw [hd]; exact ⟨mu, hg, hlog⟩
            · exact i2 d (by unfold decree at *; omega) h2
          · intro d h1 h2 m1 m2 hm1 hm2
            by_cases hd : d = start + 1
            · subst hd
              simp only [hg, Option.some.injEq] at hm1
              subst hm1
              exact i4 h2 m2 hm2
            · exact i3 d (by unfold decree at *; omega) h2 m1 m2 hm1 hm2
          · intro _ m hm
            simp only [hg, Option.some.injEq] at hm
            subst hm
            exact hbal
          · rcases i5 with hn | ⟨m2, hm2, hc⟩
            · exact Or.inl hn
            · refine Or.inr ⟨m2, hm2, ?_⟩
              rcases hc with hc | ⟨hc1, hc2⟩ | ⟨hc1, hc2⟩
              · exact Or.inl hc
              · exact Or.inr (Or.inr ⟨hsr, mu, by rw [hc1]; exact hg, hc2⟩)
              · exact Or.inr (Or.inr ⟨hsr, hc2⟩)
          · push_cast
            rw [i6]
            ring

end prepared2

section prepared3

variable {A L : Type}

/-- The fuel given by `last_prepared_decree` is enough: the loop returns, and
`last_prepared_decree` is the decree it stops at. -/
theorem last_prepared_decree_eq (r : replica A L) :
    ∃ p n, last_prepared_decree_loop r.prepare_list (r.prepare_list.mutations.length + 1)
        r.last_committed_decree 0 = some (p, n) ∧
      last_prepared_decree r = some p ∧
      n ≤ r.prepare_list.count_above r.last_committed_decree + 1 := by
  have hle : r.prepare_list.count_above r.last_committed_decree <
      r.prepare_list.mutations.length + 1 := by
    unfold prepare_list.count_above
    exact Nat.lt_succ_of_le (List.length_filter_le _ _)
  obtain ⟨p, n, h, hn⟩ := last_prepared_decree_loop_terminates r.prepare_list _
    r.last_committed_decree 0 hle
  refine ⟨p, n, h, ?_, hn⟩
  unfold last_prepared_decree
  rw [h]

end prepared3

/-- C13: for every prepare list whose entries have ballots that are not negative,
and every last committed decree `c`, `last_prepared_decree()` returns a decree
`p >= c` such that every decree in `c+1..p` is present in the prepare list and
logged, the ballots of the entries at `c+1, ..., p` do not decrease, and the entry
at `p+1` is absent, or not logged, or has a ballot lower than the entry at `p`. In
particular `p = c` when the entry at `c+1` is absent or not logged. The function
only reads the replica. -/
theorem C13_last_prepared_decree_first_stop {A L : Type} (r : replica A L)
    (hballot : ∀ mu ∈ r.prepare_list.mutations, 0 ≤ mu.data.header.ballot) :
    ∃ p, last_prepared_decree r = some p ∧
      r.last_committed_decree ≤ p ∧
      (∀ d, r.last_committed_decree < d → d ≤ p →
        ∃ mu, r.prepare_list.get_mutation_by_decree d = some mu ∧ mu.is_logged = true) ∧
      (∀ d, r.last_committed_decree < d → d < p → ∀ m1 m2,
        r.prepare_list.get_mutation_by_decree d = some m1 →
        r.prepare_list.get_mutation_by_decree (d + 1) = some m2 →
        m1.data.header.ballot ≤ m2.data.header.ballot) ∧
      (r.prepare_list.get_mutation_by_decree (p + 1) = none ∨
        ∃ m2, r.prepare_list.get_mutation_by_decree (p + 1) = some m2 ∧
          (m2.is_logged = false ∨
            ∃ m, r.prepare_list.get_mutation_by_decree p = some m ∧
              m2.data.header.ballot < m.data.header.ballot)) ∧
      ((r.prepare_list.get_mutation_by_decree (r.last_committed_decree + 1) = none ∨
          ∃ m, r.prepare_list.get_mutation_by_decree (r.last_committed_decree + 1) = some m ∧
            m.is_logged = false) →
        p = r.last_committed_decree) := by
  obtain ⟨p, n, hloop, hp, _⟩ := last_prepared_decree_eq r
  obtain ⟨i1, i2, i3, _, i5, _⟩ := last_prepared_decree_loop_spec r.prepare_list _
    r.last_committed_decree 0 p n hloop
  refine ⟨p, hp, i1, i2, i3, ?_, ?_⟩
  · rcases i5 with hn | ⟨m2, hm2, hc⟩
    · exact Or.inl hn
    · refine Or.inr ⟨m2, hm2, ?_⟩
      rcases hc with hc | ⟨_, hc2⟩ | ⟨_, hc2⟩
      · exact Or.inl hc
      · have hm := (get_mutation_by_decree_some r.prepare_list _ m2 hm2).1
        exact absurd (hballot m2 hm) (not_le.mpr hc2)
      · exact Or.inr hc2
  · intro hstop
    by_contra hne
    have hlt : r.last_committed_decree < p := lt_of_le_of_ne i1 (fun e => hne e.symm)
    have hle : r.last_committed_decree + 1 ≤ p := by unfold decree at *; omega
    obtain ⟨mu, hmu, hlog⟩ := i2 (r.last_committed_decree + 1)
      (by unfold decree at *; omega) hle
    rcases hstop with hn | ⟨m, hm, hl⟩
    · rw [hn] at hmu; cases hmu
    · rw [hm] at hmu
      cases hmu
      rw [hl] at hlog
      cases hlog

/-- C13, at a concrete prepare list: last committed decree 10, logged entries at
decrees 11 and 12 and an entry at 13 that is not logged; the probe returns 12. -/
theorem C13_last_prepared_decree_first_stop_witness :
    last_prepared_decree
        ({ replica_at .PS_PRIMARY 10 3 none with
           prepare_list := { last_committed_decree := 10, max_decree := 13,
                             mutations := [mutation_at 11, mutation_at 12,
                               { mutation_at 13 with logged := false }] } } :
          replica counting_app_state window_log_state) = some 12 ∧
    ∃ p, last_prepared_decree
        ({ replica_at .PS_PRIMARY 10 3 none with
           prepare_list := { last_committed_decree := 10, max_decree := 13,
                             mutations := [mutation_at 11, mutation_at 12,
                               { mutation_at 13 with logged := false }] } } :
          replica counting_app_state window_log_state) = some p ∧
      (10 : Int) ≤ p := by
  refine ⟨rfl, ?_⟩
  obtain ⟨p, hp, hle, _⟩ := C13_last_prepared_decree_first_stop
    ({ replica_at .PS_PRIMARY 10 3 none with
       prepare_list := { last_committed_decree := 10, max_decree := 13,
                         mutations := [mutation_at 11, mutation_at 12,
                           { mutation_at 13 with logged := false }] } } :
      replica counting_app_state window_log_state)
    (by decide)
  exact ⟨p, hp, hle⟩

/-- C19: `last_prepared_decree()` terminates for every prepare list: with one lookup
more than the prepare list has entries above the last committed decree as fuel, or
with any larger fuel, its loop reaches the `break`, always at the same decree, after
at most (number of entries with decree above `last_committed_decree`) + 1 calls of
`get_mutation_by_decree`. The decree returned is the last committed decree or the
decree of an entry held, so it exceeds no bound on these; it is the last committed
decree when no entry above it is held. -/
theorem C19_last_prepared_decree_terminates {A L : Type} (r : replica A L) :
    ∃ p n, last_prepared_decree r = some p ∧
      (∀ fuel, r.prepare_list.count_above r.last_committed_decree < fuel →
        last_prepared_decree_loop r.prepare_list fuel r.last_committed_decree 0 =
          some (p, n)) ∧
      n ≤ r.prepare_list.count_above r.last_committed_decree + 1 ∧
      (n : Int) = p - r.last_committed_decree + 1 ∧
      (p = r.last_committed_decree ∨
        ∃ mu ∈ r.prepare_list.mutations, mu.data.header.decree = p) ∧
      (∀ M : decree, r.last_committed_decree ≤ M →
        (∀ mu ∈ r.prepare_list.mutations, mu.data.header.decree ≤ M) → p ≤ M) ∧
      (r.prepare_list.count_above r.last_committed_decree = 0 →
        p = r.last_committed_decree) := by
  obtain ⟨p, n, hloop, hp, hn⟩ := last_prepared_decree_eq r
  obtain ⟨i1, i2, _, _, _, i6⟩ := last_prepared_decree_loop_spec r.prepare_list _
    r.last_committed_decree 0 p n hloop
  have hheld : p = r.last_committed_decree ∨
      ∃ mu ∈ r.prepare_list.mutations, mu.data.header.decree = p := by
    by_cases he : p = r.last_committed_decree
    · exact Or.inl he
    · have hlt : r.last_committed_decree < p := lt_of_le_of_ne i1 (fun e => he e.symm)
      obtain ⟨mu, hmu, _⟩ := i2 p hlt (le_refl _)
      obtain ⟨hm, hd⟩ := get_mutation_by_decree_some r.prepare_list p mu hmu
      exact Or.inr ⟨mu, hm, hd⟩
  refine ⟨p, n, hp, ?_, hn, i6, hheld, ?_, ?_⟩
  · intro fuel hf
    obtain ⟨p2, n2, h2, _⟩ := last_prepared_decree_loop_terminates r.prepare_list fuel
      r.last_committed_decree 0 hf
    have e1 := last_prepared_decree_loop_mono r.prepare_list _ _ _ _ hloop
      (max fuel (r.prepare_list.mutations.length + 1)) (le_max_right _ _)
    have e2 := last_prepared_decree_loop_mono r.prepare_list _ _ _ _ h2
      (max fuel (r.prepare_list.mutations.length + 1)) (le_max_left _ _)
    rw [e1] at e2
    rw [h2]
    exact e2.symm
  · intro M hM hall
    rcases hheld with he | ⟨mu, hm, hd⟩
    · rw [he]; exact hM
    · rw [← hd]; exact hall mu hm
  · intro h0
    rcases hheld with he | ⟨mu, hm, hd⟩
    · exact he
    · by_contra hne
      have hlt : r.last_committed_decree < p := lt_of_le_of_ne i1 (fun e => hne e.symm)
      have hmem : mu ∈ r.prepare_list.mutations.filter
          (fun mu => decide (r.last_committed_decree < mu.data.header.decree)) := by
        rw [List.mem_filter]
        exact ⟨hm, by rw [hd]; exact decide_eq_true hlt⟩
      unfold prepare_list.count_above at h0
      rw [List.length_eq_zero] at h0
      rw [h0] at hmem
      cases hmem

/-- C19, at a concrete prepare list: last committed decree 10 and three entries above
it; the probe returns after at most four lookups. -/
theorem C19_last_prepared_decree_terminates_witness :
    ∃ p n, last_prepared_decree
        ({ replica_at .PS_PRIMARY 10 3 none with
           prepare_list := { last_committed_decree := 10, max_decree := 13,
                             mutations := [mutation_at 11, mutation_at 12,
                               { mutation_at 13 with logged := false }] } } :
          replica counting_app_state window_log_state) = some p ∧
      n ≤ 3 + 1 ∧ p ≤ 13 := by
  obtain ⟨p, n, hp, _, hn, _, _, hM, _⟩ := C19_last_prepared_decree_terminates
    ({ replica_at .PS_PRIMARY 10 3 none with
       prepare_list := { last_committed_decree := 10, max_decree := 13,
                         mutations := [mutation_at 11, mutation_at 12,
                           { mutation_at 13 with logged := false }] } } :
      replica counting_app_state window_log_state)
  exact ⟨p, n, hp, hn, hM 13 (by decide) (by decide)⟩


end dsn.replication

namespace dsn.ports

/-! ## C20: the byte order macros reverse the bytes -/

/-- The 16 bit macro, in arithmetic: the two bytes change places. -/
theorem be16toh_eq (w x : Nat) (hw : 16 ≤ w) (hx : x < 2 ^ 16) :
    be16toh w x = x % 256 * 256 + x / 256 := by
  unfold be16toh shl
  have h1 : x &&& 255 = x % 256 := Nat.and_pow_two_sub_one_eq_mod x 8
  have h2 : x >>> 8 = x / 256 := Nat.shiftRight_eq_div_pow x 8
  have h3 : (x % 256) <<< 8 = 2 ^ 8 * (x % 256) := by rw [Nat.shiftLeft_eq, Nat.mul_comm]
  have hp : 2 ^ 16 ≤ 2 ^ w := Nat.pow_le_pow_right (by decide) hw
  have h4 : 2 ^ 8 * (x % 256) % 2 ^ w = 2 ^ 8 * (x % 256) := by
    apply Nat.mod_eq_of_lt
    have : 2 ^ 8 * (x % 256) < 2 ^ 16 := by omega
    omega
  have h5 : x / 256 < 2 ^ 8 := by omega
  rw [h1, h2, h3, h4, Nat.or_comm, ← Nat.mul_add_lt_is_or h5 (x % 256)]
  omega

theorem be16toh_lt (w x : Nat) (hw : 16 ≤ w) (hx : x < 2 ^ 16) : be16toh w x < 2 ^ 16 := by
  rw [be16toh_eq w x hw hx]
  omega

/-- The 32 bit macro, in arithmetic: the two halves change places, each with its
bytes swapped. -/
theorem be32toh_eq (w x : Nat) (hw : 32 ≤ w) (hx : x < 2 ^ 32) :
    be32toh w x = be16toh w (x % 65536) * 65536 + be16toh w (x / 65536) := by
  unfold be32toh shl
  have h1 : x &&& 65535 = x % 65536 := Nat.and_pow_two_sub_one_eq_mod x 16
  have h2 : x >>> 16 = x / 65536 := Nat.shiftRight_eq_div_pow x 16
  have hhi : x / 65536 < 2 ^ 16 := by omega
  have hlo : x % 65536 < 2 ^ 16 := by omega
  have bhi := be16toh_lt w (x / 65536) (by omega) hhi
  have blo := be16toh_lt w (x % 65536) (by omega) hlo
  have h3 : be16toh w (x / 65536) &&& 65535 = be16toh w (x / 65536) := by
    rw [show (65535 : Nat) = 2 ^ 16 - 1 from rfl, Nat.and_pow_two_sub_one_eq_mod]
    exact Nat.mod_eq_of_lt bhi
  have h4 : be16toh w (x % 65536) <<< 16 = 2 ^ 16 * be16toh w (x % 65536) := by
    rw [Nat.shiftLeft_eq, Nat.mul_comm]
  have hp : 2 ^ 32 ≤ 2 ^ w := Nat.pow_le_pow_right (by decide) hw
  have h5 : 2 ^ 16 * be16toh w (x % 65536) % 2 ^ w = 2 ^ 16 * be16toh w (x % 65536) := by
    apply Nat.mod_eq_of_lt
    have : 2 ^ 16 * be16toh w (x % 65536) < 2 ^ 32 := by omega
    omega
  rw [h1, h2, h3, h4, h5, Nat.or_comm, ← Nat.mul_add_lt_is_or bhi]
  omega

theorem be32toh_lt (w x : Nat) (hw : 32 ≤ w) (hx : x < 2 ^ 32) : be32toh w x < 2 ^ 32 := by
  rw [be32toh_eq w x hw hx]
  have bhi := be16toh_lt w (x / 65536) (by omega) (by omega)
  have blo := be16toh_lt w (x % 65536) (by omega) (by omega)
  omega

/-- The 64 bit macro, in arithmetic: the two halves change places, each with its
bytes reversed. -/
theorem be64toh_eq (w x : Nat) (hw : 64 ≤ w) (hx : x < 2 ^ 64) :
    be64toh w x =
      be32toh w (x % 4294967296) * 4294967296 + be32toh w (x / 4294967296) := by
  unfold be64toh shl
  have h1 : x &&& 0xffffffff = x % 4294967296 := Nat.and_pow_two_sub_one_eq_mod x 32
  have h2 : x >>> 32 = x / 4294967296 := Nat.shiftRight_eq_div_pow x 32
  have hhi : x / 4294967296 < 2 ^ 32 := by omega
  have hlo : x % 4294967296 < 2 ^ 32 := by omega
  have bhi := be32toh_lt w (x / 4294967296) (by omega) hhi
  have blo := be32toh_lt w (x % 4294967296) (by omega) hlo
  have h3 : be32toh w (x / 4294967296) &&& 0xffffffff = be32toh w (x / 4294967296) := by
    rw [show (0xffffffff : Nat) = 2 ^ 32 - 1 from rfl, Nat.and_pow_two_sub_one_eq_mod]
    exact Nat.mod_eq_of_lt bhi
  have h4 : be32toh w (x % 4294967296) <<< 32 = 2 ^ 32 * be32toh w (x % 4294967296) := by
    rw [Nat.shiftLeft_eq, Nat.mul_comm]
  have hp : 2 ^ 64 ≤ 2 ^ w := Nat.pow_le_pow_right (by decide) hw
  have h5 : 2 ^ 32 * be32toh w (x % 4294967296) % 2 ^ w =
      2 ^ 32 * be32toh w (x % 4294967296) := by
    apply Nat.mod_eq_of_lt
    have : 2 ^ 32 * be32toh w (x % 4294967296) < 2 ^ 64 := by omega
    omega
  rw [h1, h2, h3, h4, h5, Nat.or_comm, ← Nat.mul_add_lt_is_or bhi]
  omega

theorem be16toh_involutive (w x : Nat) (hw : 16 ≤ w) (hx : x < 2 ^ 16) :
    be16toh w (be16toh w x) = x := by
  have hy := be16toh_lt w x hw hx
  rw [be16toh_eq w (be16toh w x) hw hy, be16toh_eq w x hw hx]
  omega

theorem be32toh_involutive (w x : Nat) (hw : 32 ≤ w) (hx : x < 2 ^ 32) :
    be32toh w (be32toh w x) = x := by
  have hy := be32toh_lt w x hw hx
  have ha := be16toh_lt w (x % 65536) (by omega) (by omega)
  have hb := be16toh_lt w (x / 65536) (by omega) (by omega)
  have ia := be16toh_involutive w (x % 65536) (by omega) (by omega)
  have ib := be16toh_involutive w (x / 65536) (by omega) (by omega)
  rw [be32toh_eq w (be32toh w x) hw hy, be32toh_eq w x hw hx]
  have e1 : (be16toh w (x % 65536) * 65536 + be16toh w (x / 65536)) % 65536 =
      be16toh w (x / 65536) := by omega
  have e2 : (be16toh w (x % 65536) * 65536 + be16toh w (x / 65536)) / 65536 =
      be16toh w (x % 65536) := by omega
  rw [e1, e2, ia, ib]
  omega

theorem be64toh_involutive (w x : Nat) (hw : 64 ≤ w) (hx : x < 2 ^ 64) :
    be64toh w (be64toh w x) = x := by
  have ha := be32toh_lt w (x % 4294967296) (by omega) (by omega)
  have hb := be32toh_lt w (x / 4294967296) (by omega) (by omega)
  have ia := be32toh_involutive w (x % 4294967296) (by omega) (by omega)
  have ib := be32toh_involutive w (x / 4294967296) (by omega) (by omega)
  have hy : be64toh w x < 2 ^ 64 := by
    rw [be64toh_eq w x hw hx]
    omega
  rw [be64toh_eq w (be64toh w x) hw hy, be64toh_eq w x hw hx]
  have e1 : (be32toh w (x % 4294967296) * 4294967296 + be32toh w (x / 4294967296)) %
      4294967296 = be32toh w (x / 4294967296) := by omega
  have e2 : (be32toh w (x % 4294967296) * 4294967296 + be32toh w (x / 4294967296)) /
      4294967296 = be32toh w (x % 4294967296) := by omega
  rw [e1, e2, ia, ib]
  omega

theorem be16toh_reverse (w x : Nat) (hw : 16 ≤ w) (hx : x < 2 ^ 16) :
    be16toh w x = byte_reverse 2 x := by
  rw [be16toh_eq w x hw hx]
  simp only [byte_reverse, bytes_le, List.reverse_cons, List.reverse_nil, List.nil_append,
    List.singleton_append, of_bytes_le]
  omega

theorem be32toh_reverse (w x : Nat) (hw : 32 ≤ w) (hx : x < 2 ^ 32) :
    be32toh w x = byte_reverse 4 x := by
  rw [be32toh_eq w x hw hx, be16toh_eq w (x % 65536) (by omega) (by omega),
    be16toh_eq w (x / 65536) (by omega) (by omega)]
  simp only [byte_reverse, bytes_le, List.reverse_cons, List.reverse_nil, List.nil_append,
    List.singleton_append, List.cons_append, of_bytes_le]
  have e1 : x % 65536 % 256 = x % 256 := by omega
  have e2 : x % 65536 / 256 = x / 256 % 256 := by omega
  have e3 : x / 256 / 256 = x / 65536 := by omega
  have e4 : x / 65536 / 256 % 256 = x / 65536 / 256 := by omega
  rw [e1, e2, e3, e4]
  omega

theorem be64toh_reverse (w x : Nat) (hw : 64 ≤ w) (hx : x < 2 ^ 64) :
    be64toh w x = byte_reverse 8 x := by
  have hlo : x % 4294967296 < 2 ^ 32 := by omega
  have hhi : x / 4294967296 < 2 ^ 32 := by omega
  rw [be64toh_eq w x hw hx, be32toh_reverse w _ (by omega) hlo,
    be32toh_reverse w _ (by omega) hhi]
  simp only [byte_reverse, bytes_le, List.reverse_cons, List.reverse_nil, List.nil_append,
    List.singleton_append, List.cons_append, of_bytes_le]
  have e1 : x % 4294967296 % 256 = x % 256 := by omega
  have e2 : x % 4294967296 / 256 % 256 = x / 256 % 256 := by omega
  have e3 : x % 4294967296 / 256 / 256 % 256 = x / 256 / 256 % 256 := by omega
  have e4 : x % 4294967296 / 256 / 256 / 256 % 256 = x / 256 / 256 / 256 % 256 := by omega
  have e5 : x / 256 / 256 / 256 / 256 = x / 4294967296 := by omega
  rw [e1, e2, e3, e4, e5]
  omega

/-- C20: the fallback byte order macros reverse the byte order exactly: for every
unsigned 16 bit `x`, `be16toh(x)` is `x` with its two bytes swapped; for every
unsigned 32 bit `x`, `be32toh(x)` is `x` with its four bytes reversed; for every
unsigned 64 bit `x`, `be64toh(x)` is `x` with its eight bytes reversed. Hence each is
an involution on its width. -/
theorem C20_byte_order_macros_reverse_bytes :
    (∀ x, x < 2 ^ 16 → be16toh 32 x = byte_reverse 2 x ∧ be16toh 32 (be16toh 32 x) = x) ∧
    (∀ x, x < 2 ^ 32 → be32toh 32 x = byte_reverse 4 x ∧ be32toh 32 (be32toh 32 x) = x) ∧
    (∀ x, x < 2 ^ 64 → be64toh 64 x = byte_reverse 8 x ∧ be64toh 64 (be64toh 64 x) = x) :=
  ⟨fun x hx => ⟨be16toh_reverse 32 x (by decide) hx, be16toh_involutive 32 x (by decide) hx⟩,
   fun x hx => ⟨be32toh_reverse 32 x (by decide) hx, be32toh_involutive 32 x (by decide) hx⟩,
   fun x hx => ⟨be64toh_reverse 64 x (by decide) hx, be64toh_involutive 64 x (by decide) hx⟩⟩

/-- C20, at concrete values of each width. -/
theorem C20_byte_order_macros_reverse_bytes_witness :
    (be16toh 32 0x1234 = byte_reverse 2 0x1234 ∧ be16toh 32 (be16toh 32 0x1234) = 0x1234) ∧
    (be32toh 32 0x12345678 = byte_reverse 4 0x12345678 ∧
      be32toh 32 (be32toh 32 0x12345678) = 0x12345678) ∧
    (be64toh 64 0x0102030405060708 = byte_reverse 8 0x0102030405060708 ∧
      be64toh 64 (be64toh 64 0x0102030405060708) = 0x0102030405060708) ∧
    byte_reverse 2 0x1234 = 0x3412 ∧ byte_reverse 4 0x12345678 = 0x78563412 ∧
    byte_reverse 8 0x0102030405060708 = 0x0807060504030201 :=
  ⟨C20_byte_order_macros_reverse_bytes.1 0x1234 (by decide),
   C20_byte_order_macros_reverse_bytes.2.1 0x12345678 (by decide),
   C20_byte_order_macros_reverse_bytes.2.2 0x0102030405060708 (by decide),
   by decide, by decide, by decide⟩

end dsn.ports
